import Mathlib

/-!
Verification development for the parallel multi-stage retrieval pipeline
(`retrieval.py`, `query_processor.py`).

The Python code is shallowly embedded below.  External black-box
collaborators (the sentence-embedding model, the cross-encoder, the BM25
scoring library, the WordNet synonym corpus and the stop-word corpus) are
modelled as parameters; everything else is translated from the source.

Python string operations are re-implemented over `List Char` with Python
semantics (`lower`, `strip`, `split`, `replace`, `startswith`, ...), since
the pipeline's behaviour depends on them.  Rational literals appearing in
executable positions are written with `mkRat`; lemmas below relate them to
the usual `_ / _` notation.
-/

/-! ### Python string primitives -/

/-- ASCII lower-casing of one character, as Python `str.lower` does for the
ASCII inputs used by this code base. -/
def charLower (c : Char) : Char :=
  if 'A' ≤ c ∧ c ≤ 'Z' then Char.ofNat (c.toNat + 32) else c

/-- Python `str.lower`. -/
def pyLower (s : String) : String :=
  String.mk (s.data.map charLower)

/-- Python whitespace (the characters stripped by `str.strip` and used by
no-argument `str.split`). -/
def isPySpace (c : Char) : Bool :=
  c = ' ' || c = '\t' || c = '\n' || c = '\r' || c = '\x0b' || c = '\x0c'

/-- Python `str.strip`. -/
def pyStrip (s : String) : String :=
  String.mk (((s.data.dropWhile isPySpace).reverse.dropWhile isPySpace).reverse)

/-- Python `len` on a string (number of characters). -/
def pyLen (s : String) : Nat :=
  s.data.length

/-- Helper for no-argument `str.split`: accumulate the current word
(in reverse) while scanning. -/
def splitWsGo : List Char → List Char → List String
  | [], cur => if cur.isEmpty then [] else [String.mk cur.reverse]
  | c :: rest, cur =>
    if isPySpace c then
      if cur.isEmpty then splitWsGo rest []
      else String.mk cur.reverse :: splitWsGo rest []
    else splitWsGo rest (c :: cur)

/-- Python no-argument `str.split`: split on whitespace runs, discarding
empty pieces. -/
def pySplitWs (s : String) : List String :=
  splitWsGo s.data []

/-- Does the first list start with the second? -/
def listStartsWith : List Char → List Char → Bool
  | _, [] => true
  | [], _ :: _ => false
  | c :: cs, p :: ps => c = p && listStartsWith cs ps

/-- Python `str.startswith`. -/
def pyStartsWith (s pre : String) : Bool :=
  listStartsWith s.data pre.data

/-- Python `str.endswith`. -/
def pyEndsWith (s suf : String) : Bool :=
  listStartsWith s.data.reverse suf.data.reverse

/-- Python `sub in s` (substring containment). -/
def containsSubGo (pat : List Char) : List Char → Bool
  | [] => listStartsWith [] pat
  | c :: rest => listStartsWith (c :: rest) pat || containsSubGo pat rest

/-- Python `sub in s`. -/
def pyContains (s sub : String) : Bool :=
  containsSubGo sub.data s.data

/-- Helper for `str.split(sep)` with non-empty separator `p :: ps`:
emit the current piece whenever the separator occurs.  The `fuel` argument
(initially the length of the scanned list, which strictly bounds the scan)
makes the recursion structural. -/
def splitOnGo (p : Char) (ps : List Char) :
    Nat → List Char → List Char → List String
  | _, [], cur => [String.mk cur.reverse]
  | 0, l, cur => [String.mk (cur.reverse ++ l)]
  | fuel + 1, c :: rest, cur =>
    if c = p && listStartsWith rest ps then
      String.mk cur.reverse :: splitOnGo p ps fuel (rest.drop ps.length) []
    else
      splitOnGo p ps fuel rest (c :: cur)

/-- Python `str.split(sep)` for a non-empty separator (the only use in this
code base); empty pieces are kept, as in Python. -/
def pySplitOnStr (s sep : String) : List String :=
  match sep.data with
  | [] => [s]
  | p :: ps => splitOnGo p ps s.data.length s.data []

/-- Helper for `str.replace(pat, repl)` with non-empty `pat = p :: ps`:
replace every non-overlapping occurrence, scanning left to right, with a
structural `fuel` argument as in `splitOnGo`. -/
def replaceGo (p : Char) (ps : List Char) (repl : List Char) :
    Nat → List Char → List Char
  | _, [] => []
  | 0, l => l
  | fuel + 1, c :: rest =>
    if c = p && listStartsWith rest ps then
      repl ++ replaceGo p ps repl fuel (rest.drop ps.length)
    else
      c :: replaceGo p ps repl fuel rest

/-- Python `str.replace(pat, repl)` for a non-empty pattern (the only use in
this code base). -/
def pyReplace (s pat repl : String) : String :=
  match pat.data with
  | [] => s
  | p :: ps => String.mk (replaceGo p ps repl.data s.data.length s.data)

/-- Python `sep.join(pieces)`. -/
def joinWith (sep : String) : List String → String
  | [] => ""
  | [x] => x
  | x :: y :: rest => x ++ sep ++ joinWith sep (y :: rest)

/-- Keep the first occurrence of each element, dropping later duplicates
(the effect of Python `list(dict.fromkeys(xs))`); `seen` accumulates the
elements already emitted. -/
def dedupFirstAux {α : Type} [DecidableEq α] (seen : List α) : List α → List α
  | [] => []
  | x :: xs =>
    if x ∈ seen then dedupFirstAux seen xs
    else x :: dedupFirstAux (x :: seen) xs

/-- Python `list(dict.fromkeys(xs))`: deduplicate preserving first-seen
order. -/
def dedupKeepFirst {α : Type} [DecidableEq α] (l : List α) : List α :=
  dedupFirstAux [] l

/-! ### Data model -/

/-- A corpus chunk: one row of the `docs` table. -/
structure Chunk where
  id : Nat
  source : String
  chunk_text : String
  metadata : String
  deriving DecidableEq, Repr

/-- A result dictionary flowing through the pipeline.  `score` is set by the
producing retriever; `multi_vec_score` and `rerank_score` are stamped by the
late-interaction and reranking stages. -/
structure SearchResult where
  id : Nat
  source : String
  chunk_text : String
  metadata : String
  score : ℚ
  multi_vec_score : Option ℚ
  rerank_score : Option ℚ
  deriving DecidableEq, Repr

/-- The black-box sentence-embedding model together with the cosine
similarity it induces on its embedding space `E` (the code composes
`SentenceTransformer.encode` with `sklearn`'s `cosine_similarity`). -/
structure Embedder (E : Type) where
  encode : String → E
  cos : E → E → ℚ

/-- The external corpora consumed by `QueryProcessor`: the NLTK stop-word
list and the WordNet synonym lookup (`get_word_synonyms`). -/
structure QueryCorpora where
  stopwords : String → Bool
  synonymsOf : String → List String

/-! ### query_processor.py -/

/-- `split_into_sentences` helper: Python `re.split(r'[.!?]+', text)` —
split on maximal runs of sentence punctuation, keeping empty pieces at the
boundaries.  `inPunct` records whether the scanner is inside a punctuation
run. -/
def isSentencePunct (c : Char) : Bool :=
  c = '.' || c = '!' || c = '?'

/-- Scanner for `re.split(r'[.!?]+', text)`; `cur` is the current piece in
reverse. -/
def splitPunctGo : List Char → List Char → Bool → List String
  | [], cur, _ => [String.mk cur.reverse]
  | c :: rest, cur, inPunct =>
    if isSentencePunct c then
      if inPunct then splitPunctGo rest cur true
      else String.mk cur.reverse :: splitPunctGo rest [] true
    else splitPunctGo rest (c :: cur) false

/-- `split_into_sentences(text)`: split on `[.!?]+`, strip each piece, keep
pieces longer than 10 characters. -/
def split_into_sentences (text : String) : List String :=
  ((splitPunctGo text.data [] false).map pyStrip).filter (fun s => 10 < pyLen s)

/-- A word character for the purposes of the regex word boundary `\b`
(ASCII `[A-Za-z0-9_]`, matching the inputs used here). -/
def isWordChar (c : Char) : Bool :=
  c.isUpper || c.isLower || c.isDigit || c = '_'

/-- Group consecutive characters into maximal runs sharing the same
`isWordChar` classification (runs are kept in order, tagged with it). -/
def groupRunsGo : List Char → Bool → List Char → List (Bool × List Char)
  | [], b, acc => [(b, acc.reverse)]
  | c :: cs, b, acc =>
    if isWordChar c = b then groupRunsGo cs b (c :: acc)
    else (b, acc.reverse) :: groupRunsGo cs (isWordChar c) [c]

/-- Split a character list into maximal word/non-word runs. -/
def groupRuns : List Char → List (Bool × List Char)
  | [] => []
  | c :: cs => groupRunsGo cs (isWordChar c) [c]

/-- A token matching `[A-Z][a-z]+` exactly (one upper-case letter followed
by at least one lower-case letter, nothing else). -/
def capword : List Char → Bool
  | [] => false
  | c :: rest => c.isUpper && !rest.isEmpty && rest.all (fun d => d.isLower)

/-- Matcher for `\b[A-Z][a-z]+(?:\s+[A-Z][a-z]+)*\b`: `ent` is the current
match in progress (empty when none), `pend` the separator run seen since the
last token of the match. -/
def entGo : List (Bool × List Char) → List Char → List Char → List String
  | [], ent, _ => if ent.isEmpty then [] else [String.mk ent]
  | (false, s) :: rest, ent, _ => entGo rest ent s
  | (true, w) :: rest, ent, pend =>
    if ent.isEmpty then
      if capword w then entGo rest w [] else entGo rest [] []
    else
      if pend.all (fun c => (isPySpace c : Bool)) && !pend.isEmpty && capword w then
        entGo rest (ent ++ pend ++ w) []
      else
        String.mk ent ::
          (if capword w then entGo rest w [] else entGo rest [] [])

/-- `extract_entities(text)`: capitalized phrases found by
`re.findall(r'\b[A-Z][a-z]+(?:\s+[A-Z][a-z]+)*\b', text)`, keeping those
longer than 2 characters, at most 3. -/
def extract_entities (text : String) : List String :=
  ((entGo (groupRuns text.data) [] []).filter (fun e => 2 < pyLen e)).take 3

/-- The `question_patterns` dictionary of `QueryProcessor.__init__`, in
insertion order. -/
def question_patterns : List (String × List String) :=
  [("what", ["definition", "explanation", "meaning"]),
   ("how", ["process", "method", "steps", "way"]),
   ("why", ["reason", "cause", "purpose"]),
   ("when", ["time", "date", "period"]),
   ("where", ["location", "place", "position"])]

/-- `QueryProcessor.decompose_query`: root query, "and"-split parts,
question-keyword sub-queries, extracted entities; deduplicated and capped
at 5. -/
def decompose_query (query : String) : List String :=
  let query_lower := pyLower query
  let sub_queries := [query]
  let sub_queries :=
    if pyContains query_lower " and " then
      sub_queries ++
        (((pySplitOnStr query_lower " and ").map pyStrip).filter
          (fun p => 3 < pyLen p))
    else sub_queries
  let main_topic := joinWith " "
    ((pySplitWs query).drop ((pySplitWs query).length - 5))
  let sub_queries :=
    match question_patterns.find? (fun p => pyStartsWith query_lower p.1) with
    | some p => sub_queries ++ (p.2.take 2).map (fun kw => kw ++ " " ++ main_topic)
    | none => sub_queries
  let sub_queries := sub_queries ++ extract_entities query
  (dedupKeepFirst sub_queries).take 5

/-- `QueryProcessor.expand_with_synonyms`: append the first synonym to each
content word of length ≥ 4 that is not a stop word. -/
def expand_with_synonyms (qc : QueryCorpora) (query : String) : String :=
  let words := pySplitWs query
  let expanded_words := words.map (fun word =>
    let word_lower := pyLower word
    if qc.stopwords word_lower || pyLen word < 4 then word
    else
      match qc.synonymsOf word_lower with
      | [] => word
      | syn0 :: _ => word ++ " " ++ syn0)
  joinWith " " expanded_words

/-- `QueryProcessor.generate_search_variations`: root query, question forms,
question-word-stripped rewrite, synonym expansion; deduplicated and capped
at 5. -/
def generate_search_variations (qc : QueryCorpora) (query : String) : List String :=
  let variations := [query]
  let query_lower := pyLower query
  let variations :=
    if !(pyEndsWith (pyStrip query) "?") then
      variations ++ ["what is " ++ query, "explain " ++ query]
    else variations
  let clean_query :=
    (["what is", "how does", "why", "when", "where", "who"]).foldl
      (fun t w => pyStrip (pyReplace t w "")) query_lower
  let variations :=
    if clean_query ≠ "" ∧ clean_query ≠ query_lower then
      variations ++ [clean_query]
    else variations
  let synonym_query := expand_with_synonyms qc query
  let variations :=
    if synonym_query ≠ query then variations ++ [synonym_query] else variations
  (dedupKeepFirst variations).take 5

/-- `QueryProcessor.extract_main_topic`: strip question words, then keep the
last three words when more than three remain. -/
def extract_main_topic (query : String) : String :=
  let topic :=
    (["what is", "how does", "how do", "why", "when", "where", "who",
      "explain", "define"]).foldl
      (fun t w => pyStrip (pyReplace t w "")) (pyLower query)
  let words := pySplitWs topic
  if 3 < words.length then joinWith " " (words.drop (words.length - 3))
  else topic

/-- `QueryProcessor.create_hypothetical_document`: template selected by the
query's leading interrogative phrase, filled with the fixed generic terms of
the source. -/
def create_hypothetical_document (query : String) : String :=
  let query_lower := pyLower query
  let topic := extract_main_topic query
  if pyStartsWith query_lower "what is" then
    topic ++ " is a concept that refers to an important concept. It involves multiple components and principles and is commonly used in various applications and scenarios."
  else if pyStartsWith query_lower "how" then
    topic ++ " works through systematic methods and techniques. The main steps include planning, execution, and evaluation. This approach is effective because fundamental principles and best practices."
  else if pyStartsWith query_lower "why" then
    topic ++ " occurs due to underlying factors and conditions. This results in significant outcomes and implications. Understanding this helps better understanding and decision-making."
  else if pyStartsWith query_lower "when" then
    topic ++ " typically happens during specific conditions or periods. This timing is important because its impact and relevance."
  else if pyStartsWith query_lower "where" then
    topic ++ " is found in relevant environments and settings. It exists in this context because fundamental principles and best practices."
  else
    topic ++ " represents an important concept. Key characteristics include distinct properties and attributes. This is relevant for practical use cases and implementations."

/-! ### retrieval.py -/

/-- One row of the SQL join `docs JOIN embeddings ON d.id = e.doc_id WHERE
e.embedding_type = ?` used by `vector_search`. -/
structure Row (E : Type) where
  id : Nat
  source : String
  chunk_text : String
  metadata : String
  emb : E

/-- The join of the `docs` table with the `embeddings` table (modelled as a
list of `(doc_id, embedding_type, vector)` triples) on a given embedding
type. -/
def joinRows {E : Type} (docs : List Chunk) (embs : List (Nat × String × E))
    (embedding_type : String) : List (Row E) :=
  docs.flatMap (fun d =>
    ((embs.filter (fun e => e.1 == d.id && e.2.1 == embedding_type)).map
      (fun e => ⟨d.id, d.source, d.chunk_text, d.metadata, e.2.2⟩)))

/-- `ParallelAdvancedRetriever.vector_search`: score every stored embedding
of the requested type against the query embedding, sort descending
(stable), truncate to `k`. -/
def vector_search {E : Type} (Eb : Embedder E) (docs : List Chunk)
    (embs : List (Nat × String × E)) (query : String) (k : Nat)
    (embedding_type : String) : List SearchResult :=
  let query_embedding := Eb.encode query
  let all_rows := joinRows docs embs embedding_type
  let results := all_rows.map (fun r =>
    { id := r.id, source := r.source, chunk_text := r.chunk_text,
      metadata := r.metadata, score := Eb.cos query_embedding r.emb,
      multi_vec_score := none, rerank_score := none : SearchResult })
  (List.insertionSort (fun a b : SearchResult => b.score ≤ a.score) results).take k

/-- Python `text.lower().split()` used to tokenize documents and queries for
BM25. -/
def tokenize (s : String) : List String :=
  pySplitWs (pyLower s)

/-- `np.argsort(scores)` (ascending), modelled as a stable argsort. -/
def stableArgsortAsc (scores : List ℚ) : List Nat :=
  (List.insertionSort (fun a b : Nat × ℚ => a.2 ≤ b.2) scores.enum).map (·.1)

/-- `ParallelAdvancedRetriever.bm25_search`: tokenize the corpus, score it
with the black-box BM25 scorer, take the `k` best indices
(`np.argsort(scores)[-k:][::-1]`, which is the whole list when `k = 0`). -/
def bm25_search (bm25 : List (List String) → List String → List ℚ)
    (docs : List Chunk) (query : String) (k : Nat) : List SearchResult :=
  if docs.isEmpty then []
  else
    let corpus := docs.map (fun d => tokenize d.chunk_text)
    let query_tokens := tokenize query
    let scores := bm25 corpus query_tokens
    let idxs := stableArgsortAsc scores
    let top_indices := (if k = 0 then idxs else idxs.drop (idxs.length - k)).reverse
    top_indices.map (fun idx =>
      let d := docs.getD idx ⟨0, "", "", ""⟩
      { id := d.id, source := d.source, chunk_text := d.chunk_text,
        metadata := d.metadata, score := scores.getD idx 0,
        multi_vec_score := none, rerank_score := none : SearchResult })

/-- `np.max` over a list of similarities (the lists taken here are
non-empty; the `[]` case is junk, never reached). -/
def maxQ : List ℚ → ℚ
  | [] => 0
  | x :: xs => xs.foldl max x

/-- The per-candidate late-interaction score of
`parallel_multi_vector_search`: the maximum cosine similarity between the
query embedding and the candidate's sentence embeddings, `0.0` when the
candidate has no extractable sentences. -/
def lateScore {E : Type} (Eb : Embedder E) (query_embedding : E)
    (text : String) : ℚ :=
  match (split_into_sentences text).map
      (fun s => Eb.cos query_embedding (Eb.encode s)) with
  | [] => 0
  | x :: xs => xs.foldl max x

/-- `ParallelAdvancedRetriever.parallel_multi_vector_search`: when no
candidate has any sentence the candidates are returned unscored (truncated
to `k`); otherwise each candidate is scored by `lateScore`, the list is
sorted descending (stable) and truncated to `k`, stamping
`multi_vec_score`. -/
def parallel_multi_vector_search {E : Type} (Eb : Embedder E) (query : String)
    (candidates : List SearchResult) (k : Nat) : List SearchResult :=
  let query_embedding := Eb.encode query
  let all_sentences := candidates.flatMap (fun c => split_into_sentences c.chunk_text)
  if all_sentences.isEmpty then candidates.take k
  else
    let scores := candidates.map (fun c =>
      (lateScore Eb query_embedding c.chunk_text, c))
    let sorted := List.insertionSort (fun a b : ℚ × SearchResult => b.1 ≤ a.1) scores
    (sorted.take k).map (fun p => { p.2 with multi_vec_score := some p.1 })

/-- `ParallelAdvancedRetriever.rerank_with_cross_encoder`: one batched
cross-encoder call (the black-box `reranker`), stable descending sort,
truncate to `top_k`, stamp `rerank_score`. -/
def rerank_with_cross_encoder (reranker : String → String → ℚ) (query : String)
    (documents : List SearchResult) (top_k : Nat) : List SearchResult :=
  if documents.isEmpty then []
  else
    let doc_scores := documents.map (fun d => (d, reranker query d.chunk_text))
    let sorted := List.insertionSort (fun a b : SearchResult × ℚ => b.2 ≤ a.2) doc_scores
    (sorted.take top_k).map (fun p => { p.1 with rerank_score := some p.2 })

/-- One entry of the `scores` dictionary of `reciprocal_rank_fusion`:
accumulated RRF score and the result object of the key's first
occurrence. -/
structure RrfEntry where
  key : String
  score : ℚ
  result : SearchResult
  deriving DecidableEq, Repr

/-- One `scores[doc_id]['score'] += 1.0 / (k + rank)` update of
`reciprocal_rank_fusion` (`mkRat 1 (k + rank)` is `1/(k + rank)`; see
`mkRat_one_eq_div`). -/
def rrfAdd (k : Nat) (table : List RrfEntry) (rank : Nat) (r : SearchResult) :
    List RrfEntry :=
  if table.any (fun e => e.key == r.chunk_text) then
    table.map (fun e =>
      if e.key == r.chunk_text then { e with score := e.score + mkRat 1 (k + rank) }
      else e)
  else
    table ++ [⟨r.chunk_text, 0 + mkRat 1 (k + rank), r⟩]

/-- The fully accumulated `scores` dictionary of `reciprocal_rank_fusion`
(as an association list in insertion order, which is first-occurrence
order). -/
def rrfTable (k : Nat) (result_lists : List (List SearchResult)) : List RrfEntry :=
  result_lists.foldl
    (fun table result_list =>
      (result_list.enum).foldl
        (fun t p => rrfAdd k t (p.1 + 1) p.2) table)
    []

/-- `ParallelAdvancedRetriever.reciprocal_rank_fusion`: accumulate
`1/(k + rank)` per occurrence keyed by chunk text, then sort the dictionary
values by score descending (stable, hence ties keep insertion order) and
return the stored result objects. -/
def reciprocal_rank_fusion (result_lists : List (List SearchResult))
    (k : Nat) : List SearchResult :=
  ((List.insertionSort (fun a b : RrfEntry => b.score ≤ a.score)
      (rrfTable k result_lists)).map (·.result))

/-- Loop of `apply_diversity_filter`: `kept` carries the selected documents
with their embeddings; a candidate is admitted when its maximum similarity
to the kept set is below the threshold, and the loop stops as soon as the
kept set reaches `max_results` (checked after the insertion, as in the
source). -/
def diversityGo {E : Type} (Eb : Embedder E) (threshold : ℚ) (max_results : Nat) :
    List (SearchResult × E) → List (SearchResult × E) → List SearchResult
  | kept, [] => kept.map (·.1)
  | kept, (d, e) :: rest =>
    let sims := kept.map (fun ke => Eb.cos e ke.2)
    let kept' := if maxQ sims < threshold then kept ++ [(d, e)] else kept
    if max_results ≤ kept'.length then kept'.map (·.1)
    else diversityGo Eb threshold max_results kept' rest

/-- `ParallelAdvancedRetriever.apply_diversity_filter`: greedy near-duplicate
suppression seeded with the top-ranked document. -/
def apply_diversity_filter {E : Type} (Eb : Embedder E)
    (documents : List SearchResult) (threshold : ℚ) (max_results : Nat) :
    List SearchResult :=
  if documents.length ≤ 1 then documents
  else
    match documents with
    | [] => documents
    | d :: rest =>
      diversityGo Eb threshold max_results
        [(d, Eb.encode d.chunk_text)]
        (rest.map (fun x => (x, Eb.encode x.chunk_text)))

/-- The dedup-by-`chunk_text` loop of `thorough_search` (stage 2): keep a
result when its text has not been seen yet. -/
def dedupByTextAux (seen : List String) : List SearchResult → List SearchResult
  | [] => []
  | r :: rest =>
    if r.chunk_text ∈ seen then dedupByTextAux seen rest
    else r :: dedupByTextAux (r.chunk_text :: seen) rest

/-- Deduplicate results by chunk text, keeping first occurrences. -/
def dedupByText (l : List SearchResult) : List SearchResult :=
  dedupByTextAux [] l

/-- Stage 1 of `thorough_search`: `[query] + sub_queries + search_variations
+ [hypothetical_doc]`, deduplicated preserving first-seen order, capped
at 7. -/
def build_all_queries (qc : QueryCorpora) (query : String) : List String :=
  (dedupKeepFirst
    ([query] ++ decompose_query query ++ generate_search_variations qc query ++
      [create_hypothetical_document query])).take 7

/-- Stage 2 of `thorough_search`, submission side: for each of the first 5
query variations, a vector search and a BM25 search (both with `k = 10`),
in submission order. -/
def thorough_futures {E : Type} (Eb : Embedder E) (qc : QueryCorpora)
    (bm25 : List (List String) → List String → List ℚ) (docs : List Chunk)
    (embs : List (Nat × String × E)) (query : String) :
    List (List SearchResult) :=
  ((build_all_queries qc query).take 5).flatMap (fun query_variation =>
    [vector_search Eb docs embs query_variation 10 "full",
     bm25_search bm25 docs query_variation 10])

/-- Stage 2 of `thorough_search`, collection side: the futures deliver their
results in completion order (`as_completed`), modelled by the index list
`completion`; results are concatenated in that order. -/
def collectOrdered (futures : List (List SearchResult))
    (completion : List Nat) : List SearchResult :=
  (completion.map (fun i => futures.getD i [])).flatten

/-- Stages 2 (dedup) through 5 of `thorough_search`, applied to the
collected fan-out results: dedup by text, keep 50, late-interaction scoring
to 30, cross-encoder rerank to 20, diversity filter (threshold `0.85`) to
`top_k`. -/
def thorough_tail {E : Type} (Eb : Embedder E)
    (reranker : String → String → ℚ) (query : String) (top_k : Nat)
    (all_results : List SearchResult) : List SearchResult :=
  let unique_results := dedupByText all_results
  let multi_vec_results :=
    parallel_multi_vector_search Eb query (unique_results.take 50) 30
  let reranked := rerank_with_cross_encoder reranker query multi_vec_results 20
  apply_diversity_filter Eb reranked (mkRat 17 20) top_k

/-- `ParallelAdvancedRetriever.thorough_search` for a given fan-out
completion order. -/
def thorough_search {E : Type} (Eb : Embedder E) (qc : QueryCorpora)
    (bm25 : List (List String) → List String → List ℚ)
    (reranker : String → String → ℚ) (docs : List Chunk)
    (embs : List (Nat × String × E)) (completion : List Nat)
    (query : String) (top_k : Nat) : List SearchResult :=
  thorough_tail Eb reranker query top_k
    (collectOrdered (thorough_futures Eb qc bm25 docs embs query) completion)

/-- `ParallelAdvancedRetriever.fast_search`: a single vector search. -/
def fast_search {E : Type} (Eb : Embedder E) (docs : List Chunk)
    (embs : List (Nat × String × E)) (query : String) (top_k : Nat) :
    List SearchResult :=
  vector_search Eb docs embs query top_k "full"

/-- `ParallelAdvancedRetriever.standard_search` in the failure-free case:
vector and BM25 searches (k = 20), RRF fusion, cross-encoder rerank of the
top 15. -/
def standard_search {E : Type} (Eb : Embedder E)
    (bm25 : List (List String) → List String → List ℚ)
    (reranker : String → String → ℚ) (docs : List Chunk)
    (embs : List (Nat × String × E)) (query : String) (top_k : Nat) :
    List SearchResult :=
  let vector_results := vector_search Eb docs embs query 20 "full"
  let bm25_results := bm25_search bm25 docs query 20
  let combined := reciprocal_rank_fusion [vector_results, bm25_results] 60
  rerank_with_cross_encoder reranker query (combined.take 15) top_k

/-- `standard_search` with explicit branch outcomes: `future.result()`
re-raises a branch's exception, which `standard_search` does not catch, so
the stage is the sequential composition of the two outcomes. -/
def standard_search_outcomes (reranker : String → String → ℚ) (query : String)
    (top_k : Nat) (vres bres : Except String (List SearchResult)) :
    Except String (List SearchResult) := do
  let vector_results ← vres
  let bm25_results ← bres
  let combined := reciprocal_rank_fusion [vector_results, bm25_results] 60
  pure (rerank_with_cross_encoder reranker query (combined.take 15) top_k)

/-- The `as_completed` collection loop of `thorough_search` with explicit
branch outcomes: a branch that raised is dropped (its exception is caught
and only printed), a successful branch extends `all_results`. -/
def collectResults (outcomes : List (Except String (List SearchResult))) :
    List SearchResult :=
  outcomes.foldl
    (fun acc o => match o with
      | .ok results => acc ++ results
      | .error _ => acc)
    []

/-- `ParallelAdvancedRetriever.search`: mode dispatch, with no argument
validation — any mode other than `fast` and `standard` runs the thorough
pipeline. -/
def search {E : Type} (Eb : Embedder E) (qc : QueryCorpora)
    (bm25 : List (List String) → List String → List ℚ)
    (reranker : String → String → ℚ) (docs : List Chunk)
    (embs : List (Nat × String × E)) (completion : List Nat)
    (query : String) (top_k : Nat) (mode : String) : List SearchResult :=
  if mode = "fast" then fast_search Eb docs embs query top_k
  else if mode = "standard" then
    standard_search Eb bm25 reranker docs embs query top_k
  else thorough_search Eb qc bm25 reranker docs embs completion query top_k

/-! ### Concrete scenario instances

A tiny corpus (chunks `apple`, `berry`, `cherry`, all shorter than the
10-character sentence cut-off) with an explicit embedder, BM25 scorer and
cross-encoder, used by the concrete scenario theorems below. -/

/-- Concrete embedding function: chunk texts map to the vectors 1, 2, 3;
every other string (all queries) maps to the query vector 0. -/
def encodeX (s : String) : Nat :=
  if s = "apple" then 1 else if s = "berry" then 2
  else if s = "cherry" then 3 else 0

/-- Concrete symmetric cosine table: the query vector is closest to `apple`,
then `berry`, then `cherry`; `apple` and `cherry` are near-duplicates
(`0.9 ≥ 0.85`), every other chunk pair is dissimilar (`0.5`). -/
def cosX (a b : Nat) : ℚ :=
  match min a b, max a b with
  | 0, 1 => mkRat 9 10
  | 0, 2 => mkRat 8 10
  | 0, 3 => mkRat 7 10
  | 1, 3 => mkRat 9 10
  | 1, 2 => mkRat 1 2
  | 2, 3 => mkRat 1 2
  | _, _ => 0

/-- The concrete embedder with dissimilar `apple`/`berry`. -/
def EbX : Embedder Nat := ⟨encodeX, cosX⟩

/-- Concrete symmetric cosine table making `apple` and `berry`
near-duplicates (`0.9 ≥ 0.85`). -/
def cosSim (a b : Nat) : ℚ :=
  match min a b, max a b with
  | 0, 1 => mkRat 9 10
  | 0, 2 => mkRat 8 10
  | 1, 2 => mkRat 9 10
  | _, _ => 0

/-- The concrete embedder with near-duplicate `apple`/`berry`. -/
def EbSim : Embedder Nat := ⟨encodeX, cosSim⟩

/-- Concrete query corpora: no stop words, no synonyms. -/
def qcX : QueryCorpora := ⟨fun _ => false, fun _ => []⟩

/-- Concrete BM25 scorer: a fixed score per document determined by its first
token (`berry` 1 < `apple` 2 < `cherry` 3). -/
def bmX : List (List String) → List String → List ℚ :=
  fun corpus _ => corpus.map (fun toks =>
    if toks.headD "" = "apple" then 2
    else if toks.headD "" = "berry" then 1
    else if toks.headD "" = "cherry" then 3 else 0)

/-- Concrete cross-encoder: constant score, so the stable rerank sort keeps
the incoming order. -/
def rrX : String → String → ℚ := fun _ _ => 0

/-- Corpus chunk `apple`. -/
def docA : Chunk := ⟨1, "a.txt", "apple", "m1"⟩

/-- Corpus chunk `berry`. -/
def docB : Chunk := ⟨2, "b.txt", "berry", "m2"⟩

/-- Corpus chunk `cherry`. -/
def docC : Chunk := ⟨3, "c.txt", "cherry", "m3"⟩

/-- The two-chunk corpus. -/
def docs2 : List Chunk := [docA, docB]

/-- Embedding rows for the two-chunk corpus (`full` channel). -/
def embs2 : List (Nat × String × Nat) := [(1, "full", 1), (2, "full", 2)]

/-- The three-chunk corpus. -/
def docs3 : List Chunk := [docA, docB, docC]

/-- Embedding rows for the three-chunk corpus (`full` channel). -/
def embs3 : List (Nat × String × Nat) :=
  [(1, "full", 1), (2, "full", 2), (3, "full", 3)]

/-- A retrieved result for chunk `apple`. -/
def resA : SearchResult := ⟨1, "a.txt", "apple", "m1", mkRat 9 10, none, none⟩

/-- A retrieved result for chunk `berry`. -/
def resB : SearchResult := ⟨2, "b.txt", "berry", "m2", mkRat 8 10, none, none⟩

/-! ### Bridging lemmas for rational literals -/

/-- `mkRat 1 n` is the reciprocal `1 / n`. -/
theorem mkRat_one_eq_div (n : Nat) : mkRat 1 n = 1 / (n : ℚ) := by
  rw [Rat.mkRat_eq_div]
  norm_num

/-- The diversity threshold literal is `0.85`. -/
theorem mkRat_seventeen_twenty : mkRat 17 20 = 85 / 100 := by
  rw [Rat.mkRat_eq_div]
  norm_num

/-! ### C1: failure isolation at fan-out joins -/

/-- C1, counterexample.  The claim states that in every fan-out stage of
every mode a failing branch is dropped while a surviving branch's results
are kept.  In `standard_search` the two branch futures are consumed with
`future.result()`, which re-raises: with the vector branch failing and the
BM25 branch succeeding with a non-empty result, the whole stage evaluates
to the branch's exception instead of a result derived from the surviving
branch. -/
theorem C1_counterexample :
    standard_search_outcomes rrX "q" 3
        (Except.error "database unavailable") (Except.ok [resA]) =
      Except.error "database unavailable" := rfl

/-- C1, amended.  Only the multi-source retrieval fan-out of
`thorough_search` isolates branch failures: in its `as_completed` loop a
failing branch is dropped and the collected results are exactly those of the
surviving branches (in particular, with one failing and one surviving
branch the stage result is the surviving branch's list alone, and even
total failure yields an empty collection rather than an error).  In
`standard_search`, a failing branch re-raises through `future.result()`
even when the other branch succeeds. -/
theorem C1_amended (e : String)
    (l1 l2 : List (Except String (List SearchResult)))
    (results : List SearchResult) (reranker : String → String → ℚ)
    (query : String) (top_k : Nat)
    (b : Except String (List SearchResult)) :
    collectResults (l1 ++ Except.error e :: l2) = collectResults (l1 ++ l2) ∧
    collectResults [Except.error e, Except.ok results] = results ∧
    collectResults (List.replicate l1.length (Except.error e)) = [] ∧
    standard_search_outcomes reranker query top_k (Except.error e) b =
      Except.error e := by
  refine ⟨?_, by simp [collectResults], ?_, rfl⟩
  · simp [collectResults, List.foldl_append]
  · induction l1 with
    | nil => rfl
    | cons x xs ih => simpa [collectResults, List.replicate] using ih

/-! ### C2: argument validation -/

/-- C2, counterexample.  The claim states that `top_k < 1`, an unknown mode
or an empty query raises `InvalidArgument` before any retrieval stage runs.
`search` performs no validation at all: with the unknown mode `"bogus"` it
runs the full thorough pipeline (the result even contains a corpus chunk,
so the corpus was read and scorers were called), and an empty query with
`top_k = 0` in fast mode returns an empty list normally instead of
raising. -/
theorem C2_counterexample :
    search EbX qcX bmX rrX docs2 embs2 (List.range 8) "q" 1 "bogus" =
        thorough_search EbX qcX bmX rrX docs2 embs2 (List.range 8) "q" 1 ∧
      "apple" ∈ (search EbX qcX bmX rrX docs2 embs2 (List.range 8) "q" 1
          "bogus").map (·.chunk_text) ∧
      search EbX qcX bmX rrX docs2 embs2 (List.range 8) "" 0 "fast" = [] :=
  ⟨rfl, by decide, by decide⟩

/-- C2, amended.  `search` validates nothing: every mode other than `fast`
and `standard` (unknown modes included) dispatches to the thorough
pipeline, and `query` and `top_k` are forwarded to the stages unchanged
with no error raised. -/
theorem C2_amended {E : Type} (Eb : Embedder E) (qc : QueryCorpora)
    (bm25 : List (List String) → List String → List ℚ)
    (reranker : String → String → ℚ) (docs : List Chunk)
    (embs : List (Nat × String × E)) (completion : List Nat)
    (query : String) (top_k : Nat) (mode : String)
    (hf : mode ≠ "fast") (hs : mode ≠ "standard") :
    search Eb qc bm25 reranker docs embs completion query top_k mode =
      thorough_search Eb qc bm25 reranker docs embs completion query top_k := by
  simp [search, hf, hs]

/-- C2, witness for the amended theorem at the unknown mode `"bogus"`. -/
theorem C2_amended_witness :
    ("bogus" : String) ≠ "fast" ∧ ("bogus" : String) ≠ "standard" ∧
    search EbX qcX bmX rrX docs2 embs2 (List.range 8) "q" 1 "bogus" =
      thorough_search EbX qcX bmX rrX docs2 embs2 (List.range 8) "q" 1 :=
  ⟨by decide, by decide,
    C2_amended EbX qcX bmX rrX docs2 embs2 (List.range 8) "q" 1 "bogus"
      (by decide) (by decide)⟩

/-! ### C6: the two-list RRF scenario -/

/-- C6, confirmed.  With chunk `A` (`resA`) ranked first and chunk `B`
(`resB`) ranked second in both a dense and a lexical list, RRF with
`k = 60` accumulates `2/61` for `A` and `2/62 = 1/31` for `B` and ranks `A`
strictly above `B`.  The embedding is a pure function of its inputs, so the
output is literally the same term on every run with the same inputs, which
settles the determinism half of the claim. -/
theorem C6_rrf_scenario :
    reciprocal_rank_fusion [[resA, resB], [resA, resB]] 60 = [resA, resB] ∧
    (rrfTable 60 [[resA, resB], [resA, resB]]).map (fun e => (e.key, e.score)) =
      [("apple", 2/61), ("berry", 1/31)] := by
  constructor
  · norm_num +decide [reciprocal_rank_fusion, rrfTable, rrfAdd, resA, resB,
      Rat.mkRat_eq_div, List.enum, List.enumFrom]
  · norm_num +decide [rrfTable, rrfAdd, resA, resB, Rat.mkRat_eq_div,
      List.enum, List.enumFrom]

/-! ### Deduplication lemmas -/

/-- `dedupFirstAux` output is a sublist of its input. -/
theorem dedupFirstAux_sublist {α : Type} [DecidableEq α] (l : List α) :
    ∀ seen, (dedupFirstAux seen l).Sublist l := by
  induction l with
  | nil => intro seen; simp [dedupFirstAux]
  | cons x xs ih =>
    intro seen
    by_cases hx : x ∈ seen
    · simp only [dedupFirstAux, if_pos hx]
      exact (ih seen).cons x
    · simp only [dedupFirstAux, if_neg hx]
      exact (ih (x :: seen)).cons₂ x

/-- `dedupFirstAux` output has no duplicates and avoids `seen`. -/
theorem dedupFirstAux_nodup {α : Type} [DecidableEq α] (l : List α) :
    ∀ seen, (dedupFirstAux seen l).Nodup ∧
      ∀ x ∈ dedupFirstAux seen l, x ∉ seen := by
  induction l with
  | nil => intro seen; simp [dedupFirstAux]
  | cons x xs ih =>
    intro seen
    by_cases hx : x ∈ seen
    · simpa only [dedupFirstAux, if_pos hx] using ih seen
    · have h2 := ih (x :: seen)
      simp only [dedupFirstAux, if_neg hx]
      refine ⟨List.nodup_cons.2 ⟨fun hmem => (h2.2 x hmem) (List.mem_cons_self x seen), h2.1⟩, ?_⟩
      intro y hy
      rcases List.mem_cons.1 hy with rfl | hy'
      · exact hx
      · exact fun hseen => (h2.2 y hy') (List.mem_cons_of_mem x hseen)

/-- Membership in `dedupFirstAux` output. -/
theorem dedupFirstAux_mem {α : Type} [DecidableEq α] (l : List α) (a : α) :
    ∀ seen, a ∈ dedupFirstAux seen l ↔ a ∈ l ∧ a ∉ seen := by
  induction l with
  | nil => intro seen; simp [dedupFirstAux]
  | cons x xs ih =>
    intro seen
    by_cases hx : x ∈ seen
    · simp only [dedupFirstAux, if_pos hx, ih, List.mem_cons]
      constructor
      · rintro ⟨h1, h2⟩; exact ⟨Or.inr h1, h2⟩
      · rintro ⟨h1 | h1, h2⟩
        · exact absurd (h1 ▸ hx) h2
        · exact ⟨h1, h2⟩
    · simp only [dedupFirstAux, if_neg hx, List.mem_cons, ih]
      constructor
      · rintro (rfl | ⟨h1, h2⟩)
        · exact ⟨Or.inl rfl, hx⟩
        · exact ⟨Or.inr h1, fun hs => h2 (Or.inr hs)⟩
      · rintro ⟨rfl | h1, h2⟩
        · exact Or.inl rfl
        · by_cases hax : a = x
          · exact Or.inl hax
          · exact Or.inr ⟨h1, fun hs => hs.elim hax h2⟩

/-! ### C10: Query Enhancer output bounds -/

/-- C10, confirmed.  For every query (and any stop-word list and synonym
corpus), `decompose_query` yields at most 5 sub-queries,
`generate_search_variations` at most 5 variations,
`create_hypothetical_document` is a single text, and the merged variant
list of `thorough_search` — root query, then sub-queries, then variations,
then the hypothetical text — is deduplicated by exact text (no duplicates
remain, and the survivors are a subsequence of the concatenation, hence in
first-seen order), contains at most 7 entries, and starts with the root
query. -/
theorem C10_query_enhancer (qc : QueryCorpora) (query : String) :
    (decompose_query query).length ≤ 5 ∧
    (generate_search_variations qc query).length ≤ 5 ∧
    (build_all_queries qc query).length ≤ 7 ∧
    (build_all_queries qc query).Nodup ∧
    (build_all_queries qc query).Sublist
      ([query] ++ decompose_query query ++
        generate_search_variations qc query ++
        [create_hypothetical_document query]) ∧
    (build_all_queries qc query).head? = some query := by
  refine ⟨?_, ?_, ?_, ?_, ?_, ?_⟩
  · exact (List.length_take_le 5 _).trans (le_refl 5)
  · exact (List.length_take_le 5 _).trans (le_refl 5)
  · exact (List.length_take_le 7 _).trans (le_refl 7)
  · exact ((dedupFirstAux_nodup _ []).1).sublist (List.take_sublist 7 _)
  · exact (List.take_sublist 7 _).trans (dedupFirstAux_sublist _ [])
  · show ((dedupKeepFirst (query :: _)).take 7).head? = some query
    simp [dedupKeepFirst, dedupFirstAux]

/-! ### Diversity filter lemmas -/

/-- The seed of `foldl max` is a lower bound of the result. -/
theorem le_foldl_max (xs : List ℚ) : ∀ a : ℚ, a ≤ xs.foldl max a := by
  induction xs with
  | nil => intro a; exact le_refl a
  | cons x xs ih =>
    intro a
    exact le_trans (le_max_left a x) (ih (max a x))

/-- Every member of the folded list is a lower bound of `foldl max`. -/
theorem mem_le_foldl_max (xs : List ℚ) :
    ∀ (a x : ℚ), x ∈ xs → x ≤ xs.foldl max a := by
  induction xs with
  | nil => intro a x hx; cases hx
  | cons y ys ih =>
    intro a x hx
    rcases List.mem_cons.1 hx with rfl | hx'
    · exact le_trans (le_max_right a x) (le_foldl_max ys (max a x))
    · exact ih (max a y) x hx'

/-- Every member of a list is bounded by `maxQ`. -/
theorem le_maxQ (l : List ℚ) (x : ℚ) (hx : x ∈ l) : x ≤ maxQ l := by
  cases l with
  | nil => cases hx
  | cons y ys =>
    rcases List.mem_cons.1 hx with rfl | hx'
    · exact le_foldl_max ys x
    · exact mem_le_foldl_max ys y x hx'

/-- The kept set of `diversityGo` never grows beyond
`max max_results (kept.length + 1)`. -/
theorem diversityGo_length_le {E : Type} (Eb : Embedder E) (th : ℚ) (m : Nat) :
    ∀ (rest kept : List (SearchResult × E)),
      (diversityGo Eb th m kept rest).length ≤ max m (kept.length + 1) := by
  intro rest
  induction rest with
  | nil =>
    intro kept
    simp only [diversityGo, List.length_map]
    exact le_trans (Nat.le_succ _) (le_max_right _ _)
  | cons p rest ih =>
    intro kept
    obtain ⟨d, e⟩ := p
    simp only [diversityGo]
    set kept' := if maxQ (kept.map (fun ke => Eb.cos e ke.2)) < th
      then kept ++ [(d, e)] else kept with hkept'
    have hlen : kept'.length ≤ kept.length + 1 := by
      rw [hkept']
      split
      · simp
      · exact Nat.le_succ _
    by_cases hstop : m ≤ kept'.length
    · rw [if_pos hstop]
      simp only [List.length_map]
      exact le_trans hlen (le_max_right _ _)
    · rw [if_neg hstop]
      refine le_trans (ih kept') (max_le (le_max_left _ _) ?_)
      have : kept'.length + 1 ≤ m := Nat.succ_le_of_lt (Nat.lt_of_not_le hstop)
      exact le_trans this (le_max_left _ _)

/-- `diversityGo` keeps the seed document at the head of its output. -/
theorem diversityGo_head {E : Type} (Eb : Embedder E) (th : ℚ) (m : Nat) :
    ∀ (rest : List (SearchResult × E)) (k : SearchResult × E)
      (ks : List (SearchResult × E)),
      (diversityGo Eb th m (k :: ks) rest).head? = some k.1 := by
  intro rest
  induction rest with
  | nil => intro k ks; rfl
  | cons p rest ih =>
    intro k ks
    obtain ⟨d, e⟩ := p
    simp only [diversityGo]
    by_cases hadm : maxQ ((k :: ks).map (fun ke => Eb.cos e ke.2)) < th
    · rw [if_pos hadm]
      split
      · rfl
      · exact ih k (ks ++ [(d, e)])
    · rw [if_neg hadm]
      split
      · rfl
      · exact ih k ks

/-- The length bound of `apply_diversity_filter`: the kept set can exceed
`max_results` only when `max_results < 2`, because the source checks the
bound only after each insertion and the seed is inserted unchecked. -/
theorem apply_diversity_filter_length_le {E : Type} (Eb : Embedder E)
    (documents : List SearchResult) (th : ℚ) (m : Nat) :
    (apply_diversity_filter Eb documents th m).length ≤ max m 2 := by
  unfold apply_diversity_filter
  by_cases hlen : documents.length ≤ 1
  · rw [if_pos hlen]
    exact le_trans hlen (le_trans (by norm_num) (le_max_right m 2))
  · rw [if_neg hlen]
    match documents with
    | [] => simp at hlen
    | d :: rest =>
      exact le_trans (diversityGo_length_le Eb th m _ _)
        (max_le (le_max_left m 2) (le_max_right m 2))

/-- Pairwise dissimilarity invariant of `diversityGo`: if the kept set is
pairwise dissimilar (in both directions) and every carried embedding is the
encoding of its document's text, then the output documents are pairwise
dissimilar between their encoded texts. -/
theorem diversityGo_pairwise {E : Type} (Eb : Embedder E) (th : ℚ) (m : Nat)
    (hsym : ∀ u v : E, Eb.cos u v = Eb.cos v u) :
    ∀ (rest kept : List (SearchResult × E)),
      (∀ p ∈ kept, p.2 = Eb.encode p.1.chunk_text) →
      (∀ p ∈ rest, p.2 = Eb.encode p.1.chunk_text) →
      kept.Pairwise (fun p q => Eb.cos p.2 q.2 < th) →
      (diversityGo Eb th m kept rest).Pairwise
        (fun a b =>
          Eb.cos (Eb.encode a.chunk_text) (Eb.encode b.chunk_text) < th) := by
  have hmap : ∀ (kept : List (SearchResult × E)),
      (∀ p ∈ kept, p.2 = Eb.encode p.1.chunk_text) →
      kept.Pairwise (fun p q => Eb.cos p.2 q.2 < th) →
      (kept.map (·.1)).Pairwise
        (fun a b =>
          Eb.cos (Eb.encode a.chunk_text) (Eb.encode b.chunk_text) < th) := by
    intro kept hinv hpw
    rw [List.pairwise_map]
    refine hpw.imp_of_mem ?_
    intro p q hp hq hcos
    rwa [hinv p hp, hinv q hq] at hcos
  intro rest
  induction rest with
  | nil => intro kept hinv _ hpw; exact hmap kept hinv hpw
  | cons p rest ih =>
    intro kept hinv hrest hpw
    obtain ⟨d, e⟩ := p
    have he : e = Eb.encode d.chunk_text := hrest (d, e) (List.mem_cons_self _ _)
    have hrest' : ∀ q ∈ rest, q.2 = Eb.encode q.1.chunk_text :=
      fun q hq => hrest q (List.mem_cons_of_mem _ hq)
    simp only [diversityGo]
    by_cases hadm : maxQ (kept.map (fun ke => Eb.cos e ke.2)) < th
    · rw [if_pos hadm]
      have hinv' : ∀ q ∈ kept ++ [(d, e)], q.2 = Eb.encode q.1.chunk_text := by
        intro q hq
        rcases List.mem_append.1 hq with hq' | hq'
        · exact hinv q hq'
        · rcases List.mem_singleton.1 hq' with rfl
          exact he
      have hpw' : (kept ++ [(d, e)]).Pairwise (fun p q => Eb.cos p.2 q.2 < th) := by
        rw [List.pairwise_append]
        refine ⟨hpw, List.pairwise_singleton _ _, ?_⟩
        intro a ha b hb
        rcases List.mem_singleton.1 hb with rfl
        have hle : Eb.cos e a.2 ≤ maxQ (kept.map (fun ke => Eb.cos e ke.2)) :=
          le_maxQ _ _ (List.mem_map_of_mem _ ha)
        have := lt_of_le_of_lt hle hadm
        rwa [hsym] at this
      split
      · exact hmap _ hinv' hpw'
      · exact ih _ hinv' hrest' hpw'
    · rw [if_neg hadm]
      split
      · exact hmap kept hinv hpw
      · exact ih kept hinv hrest' hpw

/-! ### C8: diversity filter invariants -/

/-- C8, counterexample.  The claim includes "the kept set never exceeds
`max_results`".  With `max_results = 1` and two dissimilar documents
(`apple`/`berry` similarity `0.5 < 0.85`) the filter returns 2 documents,
because the source checks `len(diverse_docs) >= max_results` only after
appending. -/
theorem C8_counterexample :
    (apply_diversity_filter EbX [resA, resB] (mkRat 17 20) 1).length = 2 := by
  decide

/-- The concrete cosine table is symmetric. -/
theorem cosX_symm (u v : Nat) : cosX u v = cosX v u := by
  unfold cosX
  rw [Nat.min_comm, Nat.max_comm]

/-- C8, amended.  For a symmetric similarity, the output of the diversity
filter is pairwise dissimilar (every two distinct kept candidates have
similarity below the threshold), the top-ranked input candidate is always
retained as the first output, and the kept set never exceeds
`max max_results 2` — the claimed bound `max_results` itself holds only for
`max_results ≥ 2` and fails at `max_results = 1` (see the
counterexample). -/
theorem C8_amended {E : Type} (Eb : Embedder E) (documents : List SearchResult)
    (threshold : ℚ) (max_results : Nat)
    (hsym : ∀ u v : E, Eb.cos u v = Eb.cos v u) :
    (∀ a ∈ apply_diversity_filter Eb documents threshold max_results,
      ∀ b ∈ apply_diversity_filter Eb documents threshold max_results,
        a ≠ b →
          Eb.cos (Eb.encode a.chunk_text) (Eb.encode b.chunk_text) < threshold) ∧
    (∀ d rest, documents = d :: rest →
      (apply_diversity_filter Eb documents threshold max_results).head? =
        some d) ∧
    (apply_diversity_filter Eb documents threshold max_results).length ≤
      max max_results 2 := by
  refine ⟨?_, ?_, apply_diversity_filter_length_le Eb documents threshold max_results⟩
  · have hpw : (apply_diversity_filter Eb documents threshold max_results).Pairwise
        (fun a b =>
          Eb.cos (Eb.encode a.chunk_text) (Eb.encode b.chunk_text) < threshold) := by
      unfold apply_diversity_filter
      by_cases hlen : documents.length ≤ 1
      · rw [if_pos hlen]
        match documents, hlen with
        | [], _ => exact List.Pairwise.nil
        | [d], _ => exact List.pairwise_singleton _ _
      · rw [if_neg hlen]
        match documents with
        | [] => simp at hlen
        | d :: rest =>
          refine diversityGo_pairwise Eb threshold max_results hsym _ _ ?_ ?_ ?_
          · intro p hp
            rcases List.mem_singleton.1 hp with rfl
            rfl
          · intro p hp
            rcases List.mem_map.1 hp with ⟨x, _, rfl⟩
            rfl
          · exact List.pairwise_singleton _ _
    have hsymm : Symmetric (fun a b : SearchResult =>
        Eb.cos (Eb.encode a.chunk_text) (Eb.encode b.chunk_text) < threshold) := by
      intro a b hab
      rwa [hsym] at hab
    intro a ha b hb hne
    exact hpw.forall hsymm ha hb hne
  · intro d rest hdoc
    subst hdoc
    unfold apply_diversity_filter
    by_cases hlen : (d :: rest).length ≤ 1
    · rw [if_pos hlen]
      rfl
    · rw [if_neg hlen]
      exact diversityGo_head Eb threshold max_results _ _ _

/-- C8, witness for the amended theorem: the `apple`/`berry`/`cherry` corpus
results with the symmetric concrete cosine, threshold `0.85`,
`max_results = 5`. -/
theorem C8_amended_witness :
    (∀ a ∈ apply_diversity_filter EbX [resA, resB] (mkRat 17 20) 5,
      ∀ b ∈ apply_diversity_filter EbX [resA, resB] (mkRat 17 20) 5,
        a ≠ b →
          EbX.cos (EbX.encode a.chunk_text) (EbX.encode b.chunk_text) <
            mkRat 17 20) ∧
    (∀ d rest, ([resA, resB] : List SearchResult) = d :: rest →
      (apply_diversity_filter EbX [resA, resB] (mkRat 17 20) 5).head? =
        some d) ∧
    (apply_diversity_filter EbX [resA, resB] (mkRat 17 20) 5).length ≤
      max 5 2 :=
  C8_amended EbX [resA, resB] (mkRat 17 20) 5 cosX_symm

/-! ### Result-count lemmas -/

/-- `vector_search` returns exactly `min k (number of joined rows)`
results. -/
theorem vector_search_length {E : Type} (Eb : Embedder E) (docs : List Chunk)
    (embs : List (Nat × String × E)) (query : String) (k : Nat)
    (channel : String) :
    (vector_search Eb docs embs query k channel).length =
      min k (joinRows docs embs channel).length := by
  unfold vector_search
  rw [List.length_take, (List.perm_insertionSort _ _).length_eq, List.length_map]

/-- When every chunk has exactly one stored embedding of the requested
channel, the join has one row per chunk. -/
theorem joinRows_length {E : Type} (docs : List Chunk)
    (embs : List (Nat × String × E)) (channel : String)
    (h : ∀ d ∈ docs,
      (embs.filter (fun e => e.1 == d.id && e.2.1 == channel)).length = 1) :
    (joinRows docs embs channel).length = docs.length := by
  induction docs with
  | nil => rfl
  | cons d ds ih =>
    have hd := h d (List.mem_cons_self _ _)
    have hds : ∀ d' ∈ ds,
        (embs.filter (fun e => e.1 == d'.id && e.2.1 == channel)).length = 1 :=
      fun d' hd' => h d' (List.mem_cons_of_mem _ hd')
    unfold joinRows at ih ⊢
    rw [List.flatMap_cons, List.length_append, List.length_map, hd, ih hds,
      Nat.add_comm, List.length_cons]

/-- The cross-encoder rerank stage returns at most `top_k` results. -/
theorem rerank_length_le (reranker : String → String → ℚ) (query : String)
    (documents : List SearchResult) (top_k : Nat) :
    (rerank_with_cross_encoder reranker query documents top_k).length ≤ top_k := by
  unfold rerank_with_cross_encoder
  split
  · exact Nat.zero_le _
  · rw [List.length_map]
    exact List.length_take_le _ _

/-! ### C3: result-count bounds per mode -/

/-- C3, counterexample.  The claim states that `search` returns at most
`top_k` results in every mode.  On the two-chunk dissimilar corpus,
thorough mode with `top_k = 1` returns 2 results: the diversity filter's
`max_results = top_k` bound is checked only after an insertion, so the
unchecked seed plus one admitted candidate yields 2 > 1. -/
theorem C3_counterexample :
    (search EbX qcX bmX rrX docs2 embs2 (List.range 8) "q" 1 "thorough").length
      = 2 := by
  decide

/-- C3, amended.  Fast mode returns exactly `min top_k corpus_size` results
when every chunk has exactly one stored embedding of the queried channel
(so also at most `top_k`); standard mode returns at most `top_k`; thorough
mode returns at most `top_k` whenever `top_k ≥ 2`, and in general at most
`max top_k 2` — the claimed bound fails only at `top_k = 1` in thorough
mode (see the counterexample). -/
theorem C3_amended {E : Type} (Eb : Embedder E) (qc : QueryCorpora)
    (bm25 : List (List String) → List String → List ℚ)
    (reranker : String → String → ℚ) (docs : List Chunk)
    (embs : List (Nat × String × E)) (completion : List Nat)
    (query : String) (top_k : Nat) :
    ((∀ d ∈ docs,
        (embs.filter (fun e => e.1 == d.id && e.2.1 == "full")).length = 1) →
      (fast_search Eb docs embs query top_k).length = min top_k docs.length) ∧
    (standard_search Eb bm25 reranker docs embs query top_k).length ≤ top_k ∧
    (2 ≤ top_k →
      (thorough_search Eb qc bm25 reranker docs embs completion query
        top_k).length ≤ top_k) ∧
    (thorough_search Eb qc bm25 reranker docs embs completion query
      top_k).length ≤ max top_k 2 := by
  have hthor : (thorough_search Eb qc bm25 reranker docs embs completion query
      top_k).length ≤ max top_k 2 :=
    apply_diversity_filter_length_le Eb _ _ _
  refine ⟨?_, ?_, ?_, hthor⟩
  · intro hemb
    rw [fast_search, vector_search_length, joinRows_length docs embs "full" hemb]
  · exact rerank_length_le reranker query _ top_k
  · intro htk
    rwa [max_eq_left (le_trans (by norm_num) htk)] at hthor

/-- C3, witness for the amended theorem on the two-chunk corpus with
`top_k = 5`. -/
theorem C3_amended_witness :
    (fast_search EbX docs2 embs2 "q" 5).length = min 5 docs2.length ∧
    (standard_search EbX bmX rrX docs2 embs2 "q" 5).length ≤ 5 ∧
    (thorough_search EbX qcX bmX rrX docs2 embs2 (List.range 8) "q" 5).length
      ≤ 5 :=
  ⟨(C3_amended EbX qcX bmX rrX docs2 embs2 (List.range 8) "q" 5).1 (by decide),
   (C3_amended EbX qcX bmX rrX docs2 embs2 (List.range 8) "q" 5).2.1,
   (C3_amended EbX qcX bmX rrX docs2 embs2 (List.range 8) "q" 5).2.2.1
     (by decide)⟩

/-! ### Dedup-by-text lemmas -/

/-- `dedupByTextAux` output is a sublist of its input. -/
theorem dedupByTextAux_sublist (l : List SearchResult) :
    ∀ seen, (dedupByTextAux seen l).Sublist l := by
  induction l with
  | nil => intro seen; simp [dedupByTextAux]
  | cons r rest ih =>
    intro seen
    by_cases hr : r.chunk_text ∈ seen
    · simp only [dedupByTextAux, if_pos hr]
      exact (ih seen).cons r
    · simp only [dedupByTextAux, if_neg hr]
      exact (ih (r.chunk_text :: seen)).cons₂ r

/-- Text-level membership in `dedupByTextAux` output. -/
theorem dedupByTextAux_text_mem (l : List SearchResult) (t : String) :
    ∀ seen, t ∈ (dedupByTextAux seen l).map (·.chunk_text) ↔
      t ∈ l.map (·.chunk_text) ∧ t ∉ seen := by
  induction l with
  | nil => intro seen; simp [dedupByTextAux]
  | cons r rest ih =>
    intro seen
    by_cases hr : r.chunk_text ∈ seen
    · simp only [dedupByTextAux, if_pos hr, ih, List.map_cons, List.mem_cons]
      constructor
      · rintro ⟨h1, h2⟩; exact ⟨Or.inr h1, h2⟩
      · rintro ⟨h1 | h1, h2⟩
        · exact absurd (h1 ▸ hr) h2
        · exact ⟨h1, h2⟩
    · simp only [dedupByTextAux, if_neg hr, List.map_cons, List.mem_cons, ih]
      constructor
      · rintro (rfl | ⟨h1, h2⟩)
        · exact ⟨Or.inl rfl, hr⟩
        · exact ⟨Or.inr h1, fun hs => h2 (Or.inr hs)⟩
      · rintro ⟨rfl | h1, h2⟩
        · exact Or.inl rfl
        · by_cases hrt : t = r.chunk_text
          · exact Or.inl hrt
          · exact Or.inr ⟨h1, fun hs => hs.elim hrt h2⟩

/-- The texts of `dedupByTextAux` output are distinct and avoid `seen`. -/
theorem dedupByTextAux_text_nodup (l : List SearchResult) :
    ∀ seen, ((dedupByTextAux seen l).map (·.chunk_text)).Nodup ∧
      ∀ t ∈ (dedupByTextAux seen l).map (·.chunk_text), t ∉ seen := by
  induction l with
  | nil => intro seen; simp [dedupByTextAux]
  | cons r rest ih =>
    intro seen
    by_cases hr : r.chunk_text ∈ seen
    · simpa only [dedupByTextAux, if_pos hr] using ih seen
    · have h2 := ih (r.chunk_text :: seen)
      simp only [dedupByTextAux, if_neg hr, List.map_cons]
      refine ⟨List.nodup_cons.2
        ⟨fun hmem => (h2.2 _ hmem) (List.mem_cons_self _ _), h2.1⟩, ?_⟩
      intro t ht
      rcases List.mem_cons.1 ht with rfl | ht'
      · exact hr
      · exact fun hseen => (h2.2 t ht') (List.mem_cons_of_mem _ hseen)

/-- Membership in the collected fan-out results. -/
theorem mem_collectOrdered (futures : List (List SearchResult))
    (completion : List Nat) (r : SearchResult) :
    r ∈ collectOrdered futures completion ↔
      ∃ i ∈ completion, r ∈ futures.getD i [] := by
  unfold collectOrdered
  simp [List.mem_flatten]

/-! ### C9: completion-order independence -/

/-- C9, counterexample.  The claim states that two executions of `search`
differing only in the completion order of the fan-out tasks return the same
set of chunks.  On the three-chunk corpus (`apple`/`cherry` near-duplicates,
both dissimilar from `berry`), running thorough search with the submission
order and with the first two futures swapped — a permutation of the same
futures — returns the chunk sets `{apple, berry}` and `{cherry, berry}`:
`as_completed` feeds the dedup stage in completion order, and the
order-dependent diversity filter then keeps different near-duplicate
representatives. -/
theorem C9_counterexample :
    List.Perm ([1, 0, 2, 3, 4, 5, 6, 7] : List Nat) (List.range 8) ∧
    (thorough_search EbX qcX bmX rrX docs3 embs3 (List.range 8) "q" 5).map
        (·.chunk_text) = ["apple", "berry"] ∧
    (thorough_search EbX qcX bmX rrX docs3 embs3 [1, 0, 2, 3, 4, 5, 6, 7]
        "q" 5).map (·.chunk_text) = ["cherry", "berry"] ∧
    "apple" ∈ (thorough_search EbX qcX bmX rrX docs3 embs3 (List.range 8)
        "q" 5).map (·.chunk_text) ∧
    "apple" ∉ (thorough_search EbX qcX bmX rrX docs3 embs3
        [1, 0, 2, 3, 4, 5, 6, 7] "q" 5).map (·.chunk_text) :=
  ⟨by decide, by decide, by decide, by decide, by decide⟩

/-- C9, amended.  What is completion-order independent is the stage-2
candidate set: for any two completion orders that are permutations of each
other, the deduplicated chunk-text set entering stage 3 is the same.  The
final returned chunk set can still differ with completion order (see the
counterexample), because truncation and the diversity filter downstream are
order-dependent. -/
theorem C9_amended (futures : List (List SearchResult)) (c1 c2 : List Nat)
    (hperm : List.Perm c1 c2) (t : String) :
    (t ∈ (dedupByText (collectOrdered futures c1)).map (·.chunk_text) ↔
      t ∈ (dedupByText (collectOrdered futures c2)).map (·.chunk_text)) := by
  have key : ∀ c : List Nat,
      (t ∈ (dedupByText (collectOrdered futures c)).map (·.chunk_text) ↔
        ∃ i ∈ c, ∃ r ∈ futures.getD i [], r.chunk_text = t) := by
    intro c
    rw [dedupByText, dedupByTextAux_text_mem]
    simp only [List.mem_map, List.not_mem_nil, not_false_iff, and_true]
    constructor
    · rintro ⟨r, hr, rfl⟩
      rcases (mem_collectOrdered futures c r).1 hr with ⟨i, hi, hri⟩
      exact ⟨i, hi, r, hri, rfl⟩
    · rintro ⟨i, hi, r, hri, rfl⟩
      exact ⟨r, (mem_collectOrdered futures c r).2 ⟨i, hi, hri⟩, rfl⟩
  rw [key c1, key c2]
  constructor
  · rintro ⟨i, hi, hrest⟩
    exact ⟨i, hperm.mem_iff.1 hi, hrest⟩
  · rintro ⟨i, hi, hrest⟩
    exact ⟨i, hperm.mem_iff.2 hi, hrest⟩

/-- C9, witness for the amended theorem: two-future fan-out consumed in the
two possible orders yields the same deduplicated text set. -/
theorem C9_amended_witness :
    List.Perm ([1, 0] : List Nat) [0, 1] ∧
    ("apple" ∈ (dedupByText (collectOrdered [[resA], [resB]] [1, 0])).map
        (·.chunk_text) ↔
      "apple" ∈ (dedupByText (collectOrdered [[resA], [resB]] [0, 1])).map
        (·.chunk_text)) :=
  ⟨by decide, C9_amended [[resA], [resB]] [1, 0] [0, 1] (by decide) "apple"⟩

/-! ### Sortedness machinery -/

/-- `insertionSort` output is pairwise ordered for any total transitive
relation (hypothesis form of `List.sorted_insertionSort`). -/
theorem insertionSort_pairwise {α : Type} (r : α → α → Prop) [DecidableRel r]
    (total : ∀ a b, r a b ∨ r b a) (trans : ∀ a b c, r a b → r b c → r a c)
    (l : List α) : (List.insertionSort r l).Pairwise r := by
  haveI : IsTotal α r := ⟨total⟩
  haveI : IsTrans α r := ⟨fun a b c => trans a b c⟩
  exact List.sorted_insertionSort r l

/-- A candidate with no extractable sentences has late-interaction score
`0`. -/
theorem lateScore_of_no_sentences {E : Type} (Eb : Embedder E)
    (query_embedding : E) (text : String)
    (h : split_into_sentences text = []) :
    lateScore Eb query_embedding text = 0 := by
  unfold lateScore
  rw [h, List.map_nil]

/-! ### C7: late-interaction rescoring -/

/-- C7, confirmed.  Whenever the late-interaction stage actually rescores
(some candidate has an extractable sentence; with no sentences anywhere the
code returns the candidates unscored), every returned candidate is stamped
with `multi_vec_score` equal to the maximum cosine similarity between the
query embedding and its extracted sentences (`lateScore`); candidates with
zero extractable sentences are stamped exactly `0`; the output is sorted by
that score descending; hence no zero-sentence candidate ever precedes — and
every zero-sentence candidate ranks after — any positively scored
candidate. -/
theorem C7_late_interaction {E : Type} (Eb : Embedder E) (query : String)
    (candidates : List SearchResult) (k : Nat)
    (hsome : ∃ c ∈ candidates, split_into_sentences c.chunk_text ≠ []) :
    (∀ r ∈ parallel_multi_vector_search Eb query candidates k,
      r.multi_vec_score =
        some (lateScore Eb (Eb.encode query) r.chunk_text)) ∧
    (∀ r ∈ parallel_multi_vector_search Eb query candidates k,
      split_into_sentences r.chunk_text = [] → r.multi_vec_score = some 0) ∧
    (parallel_multi_vector_search Eb query candidates k).Pairwise
      (fun a b => lateScore Eb (Eb.encode query) b.chunk_text ≤
        lateScore Eb (Eb.encode query) a.chunk_text) ∧
    (parallel_multi_vector_search Eb query candidates k).Pairwise
      (fun a b => split_into_sentences a.chunk_text = [] →
        ¬ (0 < lateScore Eb (Eb.encode query) b.chunk_text)) := by
  have hne : (candidates.flatMap fun c => split_into_sentences c.chunk_text)
      ≠ [] := by
    rcases hsome with ⟨c, hc, hcs⟩
    intro hnil
    rcases List.exists_mem_of_ne_nil _ hcs with ⟨s, hs⟩
    have : s ∈ candidates.flatMap fun c => split_into_sentences c.chunk_text :=
      List.mem_flatMap.2 ⟨c, hc, hs⟩
    rw [hnil] at this
    cases this
  have hcond : (candidates.flatMap fun c =>
      split_into_sentences c.chunk_text).isEmpty ≠ true := by
    simpa [List.isEmpty_iff] using hne
  have hout : parallel_multi_vector_search Eb query candidates k =
      ((List.insertionSort (fun a b : ℚ × SearchResult => b.1 ≤ a.1)
        (candidates.map (fun c =>
          (lateScore Eb (Eb.encode query) c.chunk_text, c)))).take k).map
        (fun p => { p.2 with multi_vec_score := some p.1 }) := by
    unfold parallel_multi_vector_search
    rw [if_neg hcond]
  have hshape : ∀ p ∈ (List.insertionSort
      (fun a b : ℚ × SearchResult => b.1 ≤ a.1)
      (candidates.map (fun c =>
        (lateScore Eb (Eb.encode query) c.chunk_text, c)))).take k,
      p.1 = lateScore Eb (Eb.encode query) p.2.chunk_text := by
    intro p hp
    have hp2 : p ∈ candidates.map (fun c =>
        (lateScore Eb (Eb.encode query) c.chunk_text, c)) :=
      (List.perm_insertionSort _ _).mem_iff.1 ((List.take_sublist k _).mem hp)
    rcases List.mem_map.1 hp2 with ⟨c, _, rfl⟩
    rfl
  have hmem : ∀ r ∈ parallel_multi_vector_search Eb query candidates k,
      r.multi_vec_score = some (lateScore Eb (Eb.encode query) r.chunk_text) := by
    rw [hout]
    intro r hr
    rcases List.mem_map.1 hr with ⟨p, hp, rfl⟩
    show some p.1 = some (lateScore Eb (Eb.encode query) p.2.chunk_text)
    rw [hshape p hp]
  have hpw : (parallel_multi_vector_search Eb query candidates k).Pairwise
      (fun a b => lateScore Eb (Eb.encode query) b.chunk_text ≤
        lateScore Eb (Eb.encode query) a.chunk_text) := by
    rw [hout]
    rw [List.pairwise_map]
    have hsorted : (List.insertionSort
        (fun a b : ℚ × SearchResult => b.1 ≤ a.1)
        (candidates.map (fun c =>
          (lateScore Eb (Eb.encode query) c.chunk_text, c)))).Pairwise
        (fun a b : ℚ × SearchResult => b.1 ≤ a.1) :=
      insertionSort_pairwise (fun a b : ℚ × SearchResult => b.1 ≤ a.1)
        (fun a b => le_total b.1 a.1)
        (fun a b c hab hbc => le_trans hbc hab) _
    have htake := hsorted.sublist (List.take_sublist k _)
    refine htake.imp_of_mem ?_
    intro p q hp hq hle
    show lateScore Eb (Eb.encode query) q.2.chunk_text ≤
      lateScore Eb (Eb.encode query) p.2.chunk_text
    rw [← hshape p hp, ← hshape q hq]
    exact hle
  refine ⟨hmem, ?_, hpw, ?_⟩
  · intro r hr hzero
    rw [hmem r hr, lateScore_of_no_sentences Eb _ _ hzero]
  · refine hpw.imp_of_mem ?_
    intro a b ha _ hle hzero
    rw [lateScore_of_no_sentences Eb _ _ hzero] at hle
    exact fun hpos => absurd (lt_of_lt_of_le hpos hle) (lt_irrefl 0)

/-- A result whose text contains one long sentence, for the C7 witness. -/
def resLong : SearchResult :=
  ⟨4, "d.txt", "this is a long sentence. ok", "m4", 0, none, none⟩

/-- C7, witness at a one-candidate instance whose text has an extractable
sentence. -/
theorem C7_late_interaction_witness :
    (∀ r ∈ parallel_multi_vector_search EbX "q" [resLong, resA] 30,
      r.multi_vec_score =
        some (lateScore EbX (EbX.encode "q") r.chunk_text)) ∧
    (∀ r ∈ parallel_multi_vector_search EbX "q" [resLong, resA] 30,
      split_into_sentences r.chunk_text = [] → r.multi_vec_score = some 0) ∧
    (parallel_multi_vector_search EbX "q" [resLong, resA] 30).Pairwise
      (fun a b => lateScore EbX (EbX.encode "q") b.chunk_text ≤
        lateScore EbX (EbX.encode "q") a.chunk_text) ∧
    (parallel_multi_vector_search EbX "q" [resLong, resA] 30).Pairwise
      (fun a b => split_into_sentences a.chunk_text = [] →
        ¬ (0 < lateScore EbX (EbX.encode "q") b.chunk_text)) :=
  C7_late_interaction EbX "q" [resLong, resA] 30
    ⟨resLong, by decide, by decide⟩

/-! ### RRF score accounting -/

/-- The accumulated RRF score of key `t` in the `scores` dictionary (`0`
when absent). -/
def scoreOf (t : String) (table : List RrfEntry) : ℚ :=
  match table.find? (fun e => e.key == t) with
  | some e => e.score
  | none => 0

/-- The contribution of one ranked list to the candidate keyed `t`:
`1/(k + rank)` at the candidate's 1-based rank, `0` when absent
(`mkRat 1 (k + i + 1)` is `1/(k + (i + 1))`; see `rankContrib_eq_div`). -/
def rankContrib (k : Nat) (l : List SearchResult) (t : String) : ℚ :=
  match l.findIdx? (fun r => r.chunk_text == t) with
  | some i => mkRat 1 (k + i + 1)
  | none => 0

/-- The position of key `t` in first-occurrence order (its index in the
accumulated dictionary). -/
def firstSeenIdx (table : List RrfEntry) (t : String) : Nat :=
  (table.map (·.key)).findIdx (fun s => s == t)

/-- `rankContrib` at a present key is the reciprocal `1/(k + rank)` for the
1-based rank `i + 1`. -/
theorem rankContrib_eq_div (k : Nat) (l : List SearchResult) (t : String)
    (i : Nat) (h : l.findIdx? (fun r => r.chunk_text == t) = some i) :
    rankContrib k l t = 1 / ((k : ℚ) + (i + 1)) := by
  simp only [rankContrib, h]
  rw [Rat.mkRat_eq_div]
  push_cast
  ring_nf

/-- `rrfAdd` preserves the invariant that each entry's key is its stored
result's chunk text. -/
theorem rrfAdd_key_result (k : Nat) (table : List RrfEntry) (rank : Nat)
    (r : SearchResult) (h : ∀ e ∈ table, e.key = e.result.chunk_text) :
    ∀ e ∈ rrfAdd k table rank r, e.key = e.result.chunk_text := by
  unfold rrfAdd
  split
  · intro e he
    rcases List.mem_map.1 he with ⟨e0, he0, rfl⟩
    split
    · exact h e0 he0
    · exact h e0 he0
  · intro e he
    rcases List.mem_append.1 he with he' | he'
    · exact h e he'
    · rcases List.mem_singleton.1 he' with rfl
      rfl

/-- The key multiset of `rrfAdd`: unchanged when the key is present,
extended by the new key otherwise. -/
theorem rrfAdd_keys (k : Nat) (table : List RrfEntry) (rank : Nat)
    (r : SearchResult) :
    (rrfAdd k table rank r).map (·.key) =
      if table.any (fun e => e.key == r.chunk_text) then table.map (·.key)
      else table.map (·.key) ++ [r.chunk_text] := by
  unfold rrfAdd
  split
  · rw [List.map_map]
    refine List.map_congr_left ?_
    intro e _
    simp only [Function.comp]
    split <;> rfl
  · rw [List.map_append]
    rfl

/-- `rrfAdd` preserves distinctness of keys. -/
theorem rrfAdd_keys_nodup (k : Nat) (table : List RrfEntry) (rank : Nat)
    (r : SearchResult) (h : (table.map (·.key)).Nodup) :
    ((rrfAdd k table rank r).map (·.key)).Nodup := by
  rw [rrfAdd_keys]
  split
  · exact h
  · rw [List.nodup_append]
    refine ⟨h, List.nodup_singleton _, ?_⟩
    intro t ht
    simp only [List.mem_singleton]
    intro hmem
    subst hmem
    rcases List.mem_map.1 ht with ⟨e, he, hkey⟩
    have : table.any (fun e => e.key == r.chunk_text) = true :=
      List.any_eq_true.2 ⟨e, he, by simp [hkey]⟩
    exact absurd this (by assumption)

/-- `scoreOf` when the key is absent. -/
theorem scoreOf_of_find_none (t : String) (table : List RrfEntry)
    (h : table.find? (fun e => e.key == t) = none) : scoreOf t table = 0 := by
  unfold scoreOf
  rw [h]

/-- `scoreOf` when the key is found. -/
theorem scoreOf_of_find_some (t : String) (table : List RrfEntry)
    (e0 : RrfEntry) (h : table.find? (fun e => e.key == t) = some e0) :
    scoreOf t table = e0.score := by
  unfold scoreOf
  rw [h]

/-- `find?` with a key predicate commutes with a key-preserving map. -/
theorem find_map_keyPreserving (table : List RrfEntry) (f : RrfEntry → RrfEntry)
    (hf : ∀ e, (f e).key = e.key) (t : String) :
    (table.map f).find? (fun e => e.key == t) =
      (table.find? (fun e => e.key == t)).map f := by
  induction table with
  | nil => rfl
  | cons e es ih =>
    simp only [List.map_cons, List.find?_cons, hf e]
    cases he : (e.key == t) with
    | true => rfl
    | false => exact ih

/-- One `rrfAdd` update adds exactly the reciprocal-rank contribution to the
updated key and nothing to any other key. -/
theorem scoreOf_rrfAdd (k : Nat) (table : List RrfEntry) (rank : Nat)
    (r : SearchResult) (t : String) :
    scoreOf t (rrfAdd k table rank r) =
      scoreOf t table + (if r.chunk_text = t then mkRat 1 (k + rank) else 0) := by
  unfold rrfAdd
  by_cases hany : (table.any fun e => e.key == r.chunk_text) = true
  · rw [if_pos hany]
    have hkf : ∀ e : RrfEntry,
        ((if e.key == r.chunk_text then
          { e with score := e.score + mkRat 1 (k + rank) } else e) :
            RrfEntry).key = e.key := by
      intro e
      split <;> rfl
    cases hfind : table.find? (fun e => e.key == t) with
    | none =>
      have hmapped : (table.map (fun e =>
          if e.key == r.chunk_text then
            { e with score := e.score + mkRat 1 (k + rank) } else e)).find?
          (fun e => e.key == t) = none := by
        rw [find_map_keyPreserving table _ hkf t, hfind]
        rfl
      rw [scoreOf_of_find_none t _ hmapped, scoreOf_of_find_none t table hfind]
      by_cases hrt : r.chunk_text = t
      · exfalso
        rcases List.any_eq_true.1 hany with ⟨e, he, hkey⟩
        have hnone := List.find?_eq_none.1 hfind e he
        rw [hrt] at hkey
        exact hnone hkey
      · rw [if_neg hrt, add_zero]
    | some e0 =>
      have hkey0 := List.find?_some hfind
      have hkey0' : e0.key = t := by simpa using hkey0
      have hmapped : (table.map (fun e =>
          if e.key == r.chunk_text then
            { e with score := e.score + mkRat 1 (k + rank) } else e)).find?
          (fun e => e.key == t) = some (if e0.key == r.chunk_text then
            { e0 with score := e0.score + mkRat 1 (k + rank) } else e0) := by
        rw [find_map_keyPreserving table _ hkf t, hfind]
        rfl
      rw [scoreOf_of_find_some t _ _ hmapped, scoreOf_of_find_some t table e0 hfind]
      by_cases hrt : r.chunk_text = t
      · have hcond : (e0.key == r.chunk_text) = true := by
          rw [beq_iff_eq, hkey0', hrt]
        rw [if_pos hrt, if_pos hcond]
      · have hcond : ¬ (e0.key == r.chunk_text) = true := by
          rw [beq_iff_eq, hkey0']
          exact fun hc => hrt hc.symm
        rw [if_neg hrt, if_neg hcond, add_zero]
  · rw [if_neg hany]
    by_cases hrt : r.chunk_text = t
    · have hnone : table.find? (fun e => e.key == t) = none := by
        rw [List.find?_eq_none]
        intro e he hkey
        refine hany (List.any_eq_true.2 ⟨e, he, ?_⟩)
        rw [hrt]
        exact hkey
      have happ : (table ++ [(⟨r.chunk_text, 0 + mkRat 1 (k + rank), r⟩ :
          RrfEntry)]).find? (fun e => e.key == t) =
          some ⟨r.chunk_text, 0 + mkRat 1 (k + rank), r⟩ := by
        rw [List.find?_append, hnone]
        simp [beq_iff_eq, hrt]
      rw [scoreOf_of_find_some t _ _ happ, scoreOf_of_find_none t table hnone,
        if_pos hrt]
    · have happ : (table ++ [(⟨r.chunk_text, 0 + mkRat 1 (k + rank), r⟩ :
          RrfEntry)]).find? (fun e => e.key == t) =
          table.find? (fun e => e.key == t) := by
        rw [List.find?_append]
        have : ([(⟨r.chunk_text, 0 + mkRat 1 (k + rank), r⟩ :
            RrfEntry)]).find? (fun e => e.key == t) = none := by
          rw [List.find?_eq_none]
          intro e he hkey
          rcases List.mem_singleton.1 he with rfl
          exact hrt (by simpa using hkey)
        rw [this, Option.or_none]
      rw [if_neg hrt, add_zero]
      unfold scoreOf
      rw [happ]

/-- Folding `rrfAdd` over enumerated results preserves key distinctness. -/
theorem rrfFold_keys_nodup (k : Nat) (pairs : List (Nat × SearchResult)) :
    ∀ table : List RrfEntry, (table.map (·.key)).Nodup →
      (((pairs.foldl (fun tb p => rrfAdd k tb (p.1 + 1) p.2) table)).map
        (·.key)).Nodup := by
  induction pairs with
  | nil => intro table h; exact h
  | cons p ps ih =>
    intro table h
    exact ih _ (rrfAdd_keys_nodup k table (p.1 + 1) p.2 h)

/-- Folding `rrfAdd` over enumerated results preserves the key/result
invariant. -/
theorem rrfFold_key_result (k : Nat) (pairs : List (Nat × SearchResult)) :
    ∀ table : List RrfEntry, (∀ e ∈ table, e.key = e.result.chunk_text) →
      ∀ e ∈ pairs.foldl (fun tb p => rrfAdd k tb (p.1 + 1) p.2) table,
        e.key = e.result.chunk_text := by
  induction pairs with
  | nil => intro table h; exact h
  | cons p ps ih =>
    intro table h
    exact ih _ (rrfAdd_key_result k table (p.1 + 1) p.2 h)

/-- Results whose text differs from `t` never change the score of `t`. -/
theorem scoreOf_foldl_notmem (k : Nat) (t : String)
    (pairs : List (Nat × SearchResult))
    (h : ∀ p ∈ pairs, p.2.chunk_text ≠ t) :
    ∀ table : List RrfEntry, (table.map (·.key)).Nodup →
      scoreOf t (pairs.foldl (fun tb p => rrfAdd k tb (p.1 + 1) p.2) table) =
        scoreOf t table := by
  induction pairs with
  | nil => intro table _; rfl
  | cons p ps ih =>
    intro table hnd
    have hp := h p (List.mem_cons_self _ _)
    have hps : ∀ q ∈ ps, q.2.chunk_text ≠ t :=
      fun q hq => h q (List.mem_cons_of_mem _ hq)
    rw [List.foldl_cons, ih hps _ (rrfAdd_keys_nodup k table _ _ hnd),
      scoreOf_rrfAdd k table _ _, if_neg hp, add_zero]

/-- The payload of an enumerated entry is a member of the base list. -/
theorem snd_mem_enumFrom (l : List SearchResult) :
    ∀ (n : Nat) (p : Nat × SearchResult), p ∈ l.enumFrom n → p.2 ∈ l := by
  induction l with
  | nil => intro n p hp; cases hp
  | cons x xs ih =>
    intro n p hp
    rcases List.mem_cons.1 hp with rfl | hp'
    · exact List.mem_cons_self _ _
    · exact List.mem_cons_of_mem _ (ih (n + 1) p hp')

/-- Processing one ranked list starting at offset `n` adds exactly the
reciprocal-rank contribution of the candidate's absolute rank, provided the
list mentions each chunk text at most once. -/
theorem scoreOf_foldl_list (k : Nat) (t : String) (l : List SearchResult)
    (hnd_l : (l.map (·.chunk_text)).Nodup) :
    ∀ (n : Nat) (table : List RrfEntry), (table.map (·.key)).Nodup →
      scoreOf t ((l.enumFrom n).foldl
          (fun tb p => rrfAdd k tb (p.1 + 1) p.2) table) =
        scoreOf t table +
          (match l.findIdx? (fun r => r.chunk_text == t) n with
           | some i => mkRat 1 (k + i + 1)
           | none => 0) := by
  induction l with
  | nil =>
    intro n table _
    simp [List.enumFrom]
  | cons r rest ih =>
    intro n table hnd
    have hnd_rest : (rest.map (·.chunk_text)).Nodup :=
      (List.nodup_cons.1 hnd_l).2
    have hr_notin : r.chunk_text ∉ rest.map (·.chunk_text) :=
      (List.nodup_cons.1 hnd_l).1
    rw [List.enumFrom_cons, List.foldl_cons, List.findIdx?_cons]
    by_cases hrt : (r.chunk_text == t) = true
    · have hrt' : r.chunk_text = t := by simpa using hrt
      rw [if_pos hrt]
      have hnotmem : ∀ p ∈ rest.enumFrom (n + 1), p.2.chunk_text ≠ t := by
        intro p hp heq
        refine hr_notin ?_
        rw [hrt']
        rw [← heq]
        exact List.mem_map_of_mem _ (snd_mem_enumFrom rest (n + 1) p hp)
      rw [scoreOf_foldl_notmem k t _ hnotmem _
          (rrfAdd_keys_nodup k table _ _ hnd),
        scoreOf_rrfAdd k table _ _, if_pos hrt']
      rfl
    · rw [if_neg hrt]
      have hrt' : ¬ r.chunk_text = t := by simpa using hrt
      rw [ih hnd_rest (n + 1) _ (rrfAdd_keys_nodup k table _ _ hnd),
        scoreOf_rrfAdd k table _ _, if_neg hrt', add_zero]

/-- The accumulated dictionary built by `rrfTable` assigns each chunk text
the sum over the input lists of its reciprocal-rank contributions. -/
theorem scoreOf_rrfTable (k : Nat) (result_lists : List (List SearchResult))
    (hnd : ∀ l ∈ result_lists, (l.map (·.chunk_text)).Nodup) (t : String) :
    scoreOf t (rrfTable k result_lists) =
      (result_lists.map (fun l => rankContrib k l t)).sum := by
  have main : ∀ (lists : List (List SearchResult))
      (table : List RrfEntry), (∀ l ∈ lists, (l.map (·.chunk_text)).Nodup) →
      (table.map (·.key)).Nodup →
      scoreOf t (lists.foldl
          (fun tb result_list => (result_list.enum).foldl
            (fun tb' p => rrfAdd k tb' (p.1 + 1) p.2) tb) table) =
        scoreOf t table + (lists.map (fun l => rankContrib k l t)).sum := by
    intro lists
    induction lists with
    | nil => intro table _ _; simp
    | cons l ls ih =>
      intro table hndl hndt
      rw [List.foldl_cons, List.map_cons, List.sum_cons]
      have h1 : (l.enum).foldl (fun tb' p => rrfAdd k tb' (p.1 + 1) p.2) table
          = (l.enumFrom 0).foldl (fun tb' p => rrfAdd k tb' (p.1 + 1) p.2)
            table := rfl
      rw [ih _ (fun l' hl' => hndl l' (List.mem_cons_of_mem _ hl'))
          (by rw [h1]; exact rrfFold_keys_nodup k _ table hndt), h1,
        scoreOf_foldl_list k t l (hndl l (List.mem_cons_self _ _)) 0 table hndt]
      unfold rankContrib
      ring
  have hmain := main result_lists [] hnd (by simp)
  unfold rrfTable
  rw [hmain]
  show 0 + _ = _
  rw [zero_add]

/-- `rrfTable` has pairwise-distinct keys. -/
theorem rrfTable_keys_nodup (k : Nat) (result_lists : List (List SearchResult)) :
    ((rrfTable k result_lists).map (·.key)).Nodup := by
  have main : ∀ (lists : List (List SearchResult)) (table : List RrfEntry),
      (table.map (·.key)).Nodup →
      ((lists.foldl (fun tb result_list => (result_list.enum).foldl
          (fun tb' p => rrfAdd k tb' (p.1 + 1) p.2) tb) table).map
        (·.key)).Nodup := by
    intro lists
    induction lists with
    | nil => intro table h; exact h
    | cons l ls ih =>
      intro table h
      exact ih _ (rrfFold_keys_nodup k _ table h)
  exact main result_lists [] (by simp)

/-- Every `rrfTable` entry's key is its stored result's chunk text. -/
theorem rrfTable_key_result (k : Nat) (result_lists : List (List SearchResult)) :
    ∀ e ∈ rrfTable k result_lists, e.key = e.result.chunk_text := by
  have main : ∀ (lists : List (List SearchResult)) (table : List RrfEntry),
      (∀ e ∈ table, e.key = e.result.chunk_text) →
      ∀ e ∈ lists.foldl (fun tb result_list => (result_list.enum).foldl
          (fun tb' p => rrfAdd k tb' (p.1 + 1) p.2) tb) table,
        e.key = e.result.chunk_text := by
    intro lists
    induction lists with
    | nil => intro table h; exact h
    | cons l ls ih =>
      intro table h
      exact ih _ (rrfFold_key_result k _ table h)
  exact main result_lists [] (by simp)

/-- In a table with distinct keys, looking up a member entry's own key gives
back its score. -/
theorem scoreOf_key_of_mem (T : List RrfEntry)
    (hnd : (T.map (·.key)).Nodup) (a : RrfEntry) (ha : a ∈ T) :
    scoreOf a.key T = a.score := by
  induction T with
  | nil => cases ha
  | cons e es ih =>
    have hnd' : (es.map (·.key)).Nodup := (List.nodup_cons.1 (by simpa using hnd)).2
    have hhead : e.key ∉ es.map (·.key) := (List.nodup_cons.1 (by simpa using hnd)).1
    by_cases hkey : (e.key == a.key) = true
    · have hkey' : e.key = a.key := by simpa using hkey
      have hae : a = e := by
        rcases List.mem_cons.1 ha with rfl | ha'
        · rfl
        · exact absurd (hkey' ▸ List.mem_map_of_mem (·.key) ha') hhead
      subst hae
      have hfind : List.find? (fun e' => e'.key == a.key) (a :: es) = some a :=
        List.find?_cons_of_pos _ hkey
      rw [scoreOf_of_find_some a.key _ a hfind]
    · have hane : a ≠ e := by
        intro hae
        subst hae
        exact hkey (by simp)
      have ha' : a ∈ es := by
        rcases List.mem_cons.1 ha with rfl | ha'
        · exact absurd rfl hane
        · exact ha'
      have hfind : List.find? (fun e' => e'.key == a.key) (e :: es) =
          List.find? (fun e' => e'.key == a.key) es :=
        List.find?_cons_of_neg _ hkey
      have hih := ih hnd' ha'
      unfold scoreOf at hih ⊢
      rw [hfind]
      exact hih

/-- In a duplicate-free list, `findIdx` of the `i`-th element is `i`. -/
theorem findIdx_get_nodup (xs : List String) :
    xs.Nodup → ∀ i : Fin xs.length,
      xs.findIdx (fun x => x == xs.get i) = i.1 := by
  induction xs with
  | nil => intro _ i; exact absurd i.2 (Nat.not_lt_zero i.1)
  | cons x rest ih =>
    intro hnd i
    match i with
    | ⟨0, _⟩ =>
      rw [List.findIdx_cons]
      simp
    | ⟨i + 1, hi⟩ =>
      rw [List.findIdx_cons]
      have hget : (x :: rest).get ⟨i + 1, hi⟩ =
          rest.get ⟨i, Nat.lt_of_succ_lt_succ hi⟩ := rfl
      rw [hget]
      have hne : (x == rest.get ⟨i, Nat.lt_of_succ_lt_succ hi⟩) = false := by
        rw [beq_eq_false_iff_ne]
        intro hxe
        exact (List.nodup_cons.1 hnd).1
          (hxe ▸ List.get_mem rest i (Nat.lt_of_succ_lt_succ hi))
      rw [hne]
      show (rest.findIdx fun y => y == rest.get ⟨i, Nat.lt_of_succ_lt_succ hi⟩)
        + 1 = i + 1
      rw [ih (List.nodup_cons.1 hnd).2 ⟨i, Nat.lt_of_succ_lt_succ hi⟩]

/-- In a duplicate-free list, `findIdx` separates distinct members. -/
theorem findIdx_inj_on_mem (xs : List String) (hnd : xs.Nodup) (s t : String)
    (hs : s ∈ xs) (ht : t ∈ xs)
    (h : xs.findIdx (fun x => x == s) = xs.findIdx (fun x => x == t)) :
    s = t := by
  rcases List.get_of_mem hs with ⟨i, rfl⟩
  rcases List.get_of_mem ht with ⟨j, rfl⟩
  rw [findIdx_get_nodup xs hnd i, findIdx_get_nodup xs hnd j] at h
  rw [Fin.ext h]

/-- The entries of a duplicate-free table sit at strictly increasing
first-seen positions. -/
theorem table_pairwise_idx (T : List RrfEntry)
    (hnd : (T.map (·.key)).Nodup) :
    T.Pairwise (fun a b => firstSeenIdx T a.key < firstSeenIdx T b.key) := by
  rw [List.pairwise_iff_getElem]
  intro i j hi hj hij
  have hmi : i < (T.map (·.key)).length := by simpa using hi
  have hmj : j < (T.map (·.key)).length := by simpa using hj
  have hkeyi : (T[i]).key = (T.map (·.key)).get ⟨i, hmi⟩ := by simp
  have hkeyj : (T[j]).key = (T.map (·.key)).get ⟨j, hmj⟩ := by simp
  unfold firstSeenIdx
  rw [hkeyi, hkeyj, findIdx_get_nodup _ hnd ⟨i, hmi⟩,
    findIdx_get_nodup _ hnd ⟨j, hmj⟩]
  exact hij

/-- `orderedInsert` only compares the inserted element with list members, so
two relations agreeing on those comparisons insert identically. -/
theorem orderedInsert_congr {α : Type} (r r' : α → α → Prop)
    [DecidableRel r] [DecidableRel r'] (x : α) :
    ∀ l : List α, (∀ y ∈ l, r x y ↔ r' x y) →
      l.orderedInsert r x = l.orderedInsert r' x := by
  intro l
  induction l with
  | nil => intro _; rfl
  | cons b bs ih =>
    intro hagree
    show (if r x b then x :: b :: bs else b :: bs.orderedInsert r x) =
      (if r' x b then x :: b :: bs else b :: bs.orderedInsert r' x)
    by_cases hb : r x b
    · rw [if_pos hb, if_pos ((hagree b (List.mem_cons_self _ _)).1 hb)]
    · rw [if_neg hb,
        if_neg (fun h' => hb ((hagree b (List.mem_cons_self _ _)).2 h')),
        ih (fun y hy => hagree y (List.mem_cons_of_mem _ hy))]

/-- On a list whose elements sit at strictly increasing positions,
insertion sort only ever compares an element against later-positioned ones,
so two relations agreeing on such pairs sort identically. -/
theorem insertionSort_congr {α : Type} (r r' : α → α → Prop)
    [DecidableRel r] [DecidableRel r'] (idx : α → Nat) :
    ∀ l : List α, l.Pairwise (fun a b => idx a < idx b) →
      (∀ a b, idx a < idx b → (r a b ↔ r' a b)) →
      List.insertionSort r l = List.insertionSort r' l := by
  intro l
  induction l with
  | nil => intro _ _; rfl
  | cons x xs ih =>
    intro hpw hagree
    have hx : ∀ y ∈ xs, idx x < idx y := (List.pairwise_cons.1 hpw).1
    show (List.insertionSort r xs).orderedInsert r x =
      (List.insertionSort r' xs).orderedInsert r' x
    rw [ih (List.pairwise_cons.1 hpw).2 hagree]
    refine orderedInsert_congr r r' x _ ?_
    intro y hy
    exact hagree x y (hx y ((List.perm_insertionSort r' xs).subset hy))

/-! ### C5: reciprocal rank fusion specification -/

/-- C5, confirmed.  For ranked input lists (each mentioning a chunk text at
most once, which is what makes "its rank in that list" well defined), the
fusion table assigns every candidate key the sum over the input lists of
`1/(60 + rank)` at its 1-based rank (zero when absent; `rankContrib` is
that reciprocal, last conjunct), the output is exactly the stored
first-occurrence result objects reordered, and the output is sorted by
accumulated score descending with ties broken strictly by first occurrence
in input order (earliest list, earliest rank — the dictionary's insertion
order); in particular two single-item lists ranking the same candidate
first fuse to score `2/61`. -/
theorem C5_rrf_spec (result_lists : List (List SearchResult))
    (hnd : ∀ l ∈ result_lists, (l.map (·.chunk_text)).Nodup) :
    (∀ t, scoreOf t (rrfTable 60 result_lists) =
      (result_lists.map (fun l => rankContrib 60 l t)).sum) ∧
    List.Perm (reciprocal_rank_fusion result_lists 60)
      ((rrfTable 60 result_lists).map (·.result)) ∧
    (reciprocal_rank_fusion result_lists 60).Pairwise (fun a b =>
      scoreOf b.chunk_text (rrfTable 60 result_lists) <
        scoreOf a.chunk_text (rrfTable 60 result_lists) ∨
      (scoreOf b.chunk_text (rrfTable 60 result_lists) =
          scoreOf a.chunk_text (rrfTable 60 result_lists) ∧
        firstSeenIdx (rrfTable 60 result_lists) a.chunk_text <
          firstSeenIdx (rrfTable 60 result_lists) b.chunk_text)) ∧
    (∀ r : SearchResult,
      scoreOf r.chunk_text (rrfTable 60 [[r], [r]]) = 2 / 61) ∧
    (∀ (l : List SearchResult) (t : String) (i : Nat),
      l.findIdx? (fun r => r.chunk_text == t) = some i →
        rankContrib 60 l t = 1 / ((60 : ℚ) + (i + 1))) := by
  refine ⟨fun t => scoreOf_rrfTable 60 result_lists hnd t, ?_, ?_, ?_, ?_⟩
  · show List.Perm ((List.insertionSort
        (fun a b : RrfEntry => b.score ≤ a.score)
        (rrfTable 60 result_lists)).map (·.result)) _
    exact (List.perm_insertionSort _ _).map _
  · have hndk := rrfTable_keys_nodup 60 result_lists
    have hkr := rrfTable_key_result 60 result_lists
    have hidx := table_pairwise_idx _ hndk
    have hagree : ∀ a b : RrfEntry,
        firstSeenIdx (rrfTable 60 result_lists) a.key <
          firstSeenIdx (rrfTable 60 result_lists) b.key →
        ((b.score ≤ a.score) ↔ (b.score < a.score ∨ (b.score = a.score ∧
          firstSeenIdx (rrfTable 60 result_lists) a.key ≤
            firstSeenIdx (rrfTable 60 result_lists) b.key))) := by
      intro a b hab
      constructor
      · intro hle
        rcases lt_or_eq_of_le hle with h | h
        · exact Or.inl h
        · exact Or.inr ⟨h, le_of_lt hab⟩
      · rintro (h | ⟨h, _⟩)
        · exact le_of_lt h
        · exact le_of_eq h
    have hcongr := insertionSort_congr
      (fun a b : RrfEntry => b.score ≤ a.score)
      (fun a b : RrfEntry => b.score < a.score ∨ (b.score = a.score ∧
        firstSeenIdx (rrfTable 60 result_lists) a.key ≤
          firstSeenIdx (rrfTable 60 result_lists) b.key))
      (fun e => firstSeenIdx (rrfTable 60 result_lists) e.key)
      (rrfTable 60 result_lists) hidx hagree
    have htotal : ∀ a b : RrfEntry,
        (b.score < a.score ∨ (b.score = a.score ∧
          firstSeenIdx (rrfTable 60 result_lists) a.key ≤
            firstSeenIdx (rrfTable 60 result_lists) b.key)) ∨
        (a.score < b.score ∨ (a.score = b.score ∧
          firstSeenIdx (rrfTable 60 result_lists) b.key ≤
            firstSeenIdx (rrfTable 60 result_lists) a.key)) := by
      intro a b
      rcases lt_trichotomy b.score a.score with h | h | h
      · exact Or.inl (Or.inl h)
      · rcases le_total (firstSeenIdx (rrfTable 60 result_lists) a.key)
          (firstSeenIdx (rrfTable 60 result_lists) b.key) with h2 | h2
        · exact Or.inl (Or.inr ⟨h, h2⟩)
        · exact Or.inr (Or.inr ⟨h.symm, h2⟩)
      · exact Or.inr (Or.inl h)
    have htrans : ∀ a b c : RrfEntry,
        (b.score < a.score ∨ (b.score = a.score ∧
          firstSeenIdx (rrfTable 60 result_lists) a.key ≤
            firstSeenIdx (rrfTable 60 result_lists) b.key)) →
        (c.score < b.score ∨ (c.score = b.score ∧
          firstSeenIdx (rrfTable 60 result_lists) b.key ≤
            firstSeenIdx (rrfTable 60 result_lists) c.key)) →
        (c.score < a.score ∨ (c.score = a.score ∧
          firstSeenIdx (rrfTable 60 result_lists) a.key ≤
            firstSeenIdx (rrfTable 60 result_lists) c.key)) := by
      intro a b c hab hbc
      rcases hab with h1 | ⟨h1, h1'⟩ <;> rcases hbc with h2 | ⟨h2, h2'⟩
      · exact Or.inl (lt_trans h2 h1)
      · exact Or.inl (by rw [h2]; exact h1)
      · exact Or.inl (by rw [← h1]; exact h2)
      · exact Or.inr ⟨h2.trans h1, le_trans h1' h2'⟩
    have hsorted := insertionSort_pairwise
      (fun a b : RrfEntry => b.score < a.score ∨ (b.score = a.score ∧
        firstSeenIdx (rrfTable 60 result_lists) a.key ≤
          firstSeenIdx (rrfTable 60 result_lists) b.key))
      htotal htrans (rrfTable 60 result_lists)
    rw [← hcongr] at hsorted
    have hkeysTS : ((List.insertionSort
        (fun a b : RrfEntry => b.score ≤ a.score)
        (rrfTable 60 result_lists)).map (·.key)).Nodup :=
      ((List.perm_insertionSort
        (fun a b : RrfEntry => b.score ≤ a.score)
        (rrfTable 60 result_lists)).map (fun e : RrfEntry => e.key)).nodup_iff.2
        hndk
    have hkeyne : (List.insertionSort
        (fun a b : RrfEntry => b.score ≤ a.score)
        (rrfTable 60 result_lists)).Pairwise (fun a b => a.key ≠ b.key) :=
      List.pairwise_map.1 (hkeysTS : List.Pairwise (· ≠ ·) _)
    show ((List.insertionSort (fun a b : RrfEntry => b.score ≤ a.score)
      (rrfTable 60 result_lists)).map (·.result)).Pairwise _
    rw [List.pairwise_map]
    refine (hsorted.and hkeyne).imp_of_mem ?_
    intro a b ha hb hR
    have haT := (List.perm_insertionSort
      (fun a b : RrfEntry => b.score ≤ a.score) _).subset ha
    have hbT := (List.perm_insertionSort
      (fun a b : RrfEntry => b.score ≤ a.score) _).subset hb
    have hka := hkr a haT
    have hkb := hkr b hbT
    have hsa : scoreOf a.result.chunk_text (rrfTable 60 result_lists) =
        a.score := by
      rw [← hka]
      exact scoreOf_key_of_mem _ hndk a haT
    have hsb : scoreOf b.result.chunk_text (rrfTable 60 result_lists) =
        b.score := by
      rw [← hkb]
      exact scoreOf_key_of_mem _ hndk b hbT
    rcases hR with ⟨hlex, hne⟩
    rcases hlex with h | ⟨heq, hle⟩
    · exact Or.inl (by rw [hsa, hsb]; exact h)
    · refine Or.inr ⟨by rw [hsa, hsb]; exact heq, ?_⟩
      have hidxne : firstSeenIdx (rrfTable 60 result_lists) a.key ≠
          firstSeenIdx (rrfTable 60 result_lists) b.key := by
        intro hid
        unfold firstSeenIdx at hid
        exact hne (findIdx_inj_on_mem ((rrfTable 60 result_lists).map (·.key))
          hndk a.key b.key (List.mem_map_of_mem _ haT)
          (List.mem_map_of_mem _ hbT) hid)
      rw [← hka, ← hkb]
      exact lt_of_le_of_ne hle hidxne
  · intro r
    have hnd2 : ∀ l ∈ [[r], [r]], (l.map (·.chunk_text)).Nodup := by
      intro l hl
      rcases List.mem_cons.1 hl with rfl | hl'
      · simp
      · rcases List.mem_singleton.1 hl' with rfl
        simp
    rw [scoreOf_rrfTable 60 _ hnd2 r.chunk_text]
    have hcontrib : rankContrib 60 [r] r.chunk_text = mkRat 1 61 := by
      unfold rankContrib
      rw [List.findIdx?_cons]
      simp
    simp only [List.map_cons, List.map_nil, List.sum_cons, List.sum_nil,
      hcontrib, add_zero]
    rw [Rat.mkRat_eq_div]
    norm_num
  · intro l t i h
    exact rankContrib_eq_div 60 l t i h

/-- C5, witness at the two-list scenario corpus. -/
theorem C5_rrf_spec_witness :
    scoreOf "apple" (rrfTable 60 [[resA, resB], [resA, resB]]) =
      (([[resA, resB], [resA, resB]] : List (List SearchResult)).map
        (fun l => rankContrib 60 l "apple")).sum ∧
    List.Perm (reciprocal_rank_fusion [[resA, resB], [resA, resB]] 60)
      ((rrfTable 60 [[resA, resB], [resA, resB]]).map (·.result)) ∧
    (reciprocal_rank_fusion [[resA, resB], [resA, resB]] 60).Pairwise
      (fun a b =>
        scoreOf b.chunk_text (rrfTable 60 [[resA, resB], [resA, resB]]) <
          scoreOf a.chunk_text (rrfTable 60 [[resA, resB], [resA, resB]]) ∨
        (scoreOf b.chunk_text (rrfTable 60 [[resA, resB], [resA, resB]]) =
            scoreOf a.chunk_text (rrfTable 60 [[resA, resB], [resA, resB]]) ∧
          firstSeenIdx (rrfTable 60 [[resA, resB], [resA, resB]])
              a.chunk_text <
            firstSeenIdx (rrfTable 60 [[resA, resB], [resA, resB]])
              b.chunk_text)) ∧
    scoreOf resA.chunk_text (rrfTable 60 [[resA], [resA]]) = 2 / 61 ∧
    rankContrib 60 [resA] "apple" = 1 / ((60 : ℚ) + (0 + 1)) :=
  ⟨(C5_rrf_spec [[resA, resB], [resA, resB]] (by decide)).1 "apple",
   (C5_rrf_spec [[resA, resB], [resA, resB]] (by decide)).2.1,
   (C5_rrf_spec [[resA, resB], [resA, resB]] (by decide)).2.2.1,
   (C5_rrf_spec [[resA], [resA]] (by decide)).2.2.2.1 resA,
   (C5_rrf_spec [[resA, resB], [resA, resB]] (by decide)).2.2.2.2 [resA]
     "apple" 0 (by decide)⟩

/-! ### Multiset-of-texts lemmas for the pipeline stages -/

/-- Sorting commutes with projecting, up to permutation. -/
theorem insertionSort_map_perm {α β : Type} (r : α → α → Prop)
    [DecidableRel r] (l : List α) (f : α → β) :
    List.Perm ((List.insertionSort r l).map f) (l.map f) :=
  (List.perm_insertionSort r l).map f

/-- The index list of the stable argsort is a permutation of all score
positions. -/
theorem stableArgsortAsc_perm (scores : List ℚ) :
    List.Perm (stableArgsortAsc scores) (List.range scores.length) := by
  unfold stableArgsortAsc
  have h1 := (List.perm_insertionSort
    (fun a b : Nat × ℚ => a.2 ≤ b.2) scores.enum).map Prod.fst
  have h2 : scores.enum.map Prod.fst = List.range scores.length := by simp
  rw [h2] at h1
  exact h1

/-- Reading a list back through `getD` along `range` reproduces it. -/
theorem map_getD_range {α : Type} (l : List α) (d : α) :
    (List.range l.length).map (fun i => l.getD i d) = l := by
  apply List.ext_getElem
  · simp
  · intro i h1 h2
    simp [List.getElem?_eq_getElem, h2]

/-- The chunk texts returned by `vector_search` are a permutation of the
joined rows' texts whenever the corpus fits within `k`. -/
theorem vector_search_texts_perm {E : Type} (Eb : Embedder E)
    (docs : List Chunk) (embs : List (Nat × String × E)) (query : String)
    (k : Nat) (channel : String)
    (hlen : (joinRows docs embs channel).length ≤ k) :
    List.Perm ((vector_search Eb docs embs query k channel).map (·.chunk_text))
      ((joinRows docs embs channel).map (·.chunk_text)) := by
  unfold vector_search
  rw [List.take_of_length_le (by
    rw [(List.perm_insertionSort _ _).length_eq, List.length_map]
    exact hlen)]
  refine List.Perm.trans (insertionSort_map_perm _ _ _) ?_
  rw [List.map_map]
  exact List.Perm.refl _

/-- The chunk texts returned by `bm25_search` are a permutation of the
corpus texts whenever the corpus fits within `k > 0` and the scorer returns
one score per document. -/
theorem bm25_search_texts_perm
    (bm25 : List (List String) → List String → List ℚ) (docs : List Chunk)
    (query : String) (k : Nat) (hne : docs ≠ []) (hk : k ≠ 0)
    (hlen : docs.length ≤ k)
    (hbm : (bm25 (docs.map (fun d => tokenize d.chunk_text))
      (tokenize query)).length = docs.length) :
    List.Perm ((bm25_search bm25 docs query k).map (·.chunk_text))
      (docs.map (·.chunk_text)) := by
  have hidxs := stableArgsortAsc_perm
    (bm25 (docs.map (fun d => tokenize d.chunk_text)) (tokenize query))
  rw [hbm] at hidxs
  have hidxlen : (stableArgsortAsc
      (bm25 (docs.map (fun d => tokenize d.chunk_text))
        (tokenize query))).length = docs.length := by
    rw [hidxs.length_eq, List.length_range]
  simp only [bm25_search]
  rw [if_neg (by simpa [List.isEmpty_iff] using hne), if_neg hk, hidxlen,
    Nat.sub_eq_zero_of_le hlen, List.drop_zero]
  have htop : List.Perm (stableArgsortAsc
      (bm25 (docs.map (fun d => tokenize d.chunk_text))
        (tokenize query))).reverse (List.range docs.length) :=
    (List.reverse_perm _).trans hidxs
  rw [List.map_map]
  have hmapped := htop.map (fun idx =>
    (docs.getD idx ⟨0, "", "", ""⟩).chunk_text)
  refine List.Perm.trans hmapped ?_
  have heq : (List.range docs.length).map
      (fun idx => (docs.getD idx ⟨0, "", "", ""⟩).chunk_text) =
      ((List.range docs.length).map
        (fun idx => docs.getD idx ⟨0, "", "", ""⟩)).map (·.chunk_text) := by
    rw [List.map_map]
    rfl
  rw [heq, map_getD_range]

/-- The late-interaction stage permutes (never drops) chunk texts when the
candidate set fits within `k`. -/
theorem pmvs_texts_perm {E : Type} (Eb : Embedder E) (query : String)
    (candidates : List SearchResult) (k : Nat)
    (hlen : candidates.length ≤ k) :
    List.Perm ((parallel_multi_vector_search Eb query candidates k).map
      (·.chunk_text)) (candidates.map (·.chunk_text)) := by
  simp only [parallel_multi_vector_search]
  split
  · rw [List.take_of_length_le hlen]
  · rw [List.take_of_length_le (by
      rw [(List.perm_insertionSort _ _).length_eq, List.length_map]
      exact hlen)]
    rw [List.map_map]
    refine List.Perm.trans (insertionSort_map_perm _ _ _) ?_
    rw [List.map_map]
    exact List.Perm.refl _

/-- The rerank stage permutes (never drops) chunk texts when the candidate
set fits within `top_k`. -/
theorem rerank_texts_perm (reranker : String → String → ℚ) (query : String)
    (documents : List SearchResult) (top_k : Nat)
    (hlen : documents.length ≤ top_k) :
    List.Perm ((rerank_with_cross_encoder reranker query documents
      top_k).map (·.chunk_text)) (documents.map (·.chunk_text)) := by
  simp only [rerank_with_cross_encoder]
  split
  · have hd : documents = [] := by
      rwa [← List.isEmpty_iff]
    rw [hd]
  · rw [List.take_of_length_le (by
      rw [(List.perm_insertionSort _ _).length_eq, List.length_map]
      exact hlen)]
    rw [List.map_map]
    refine List.Perm.trans (insertionSort_map_perm _ _ _) ?_
    rw [List.map_map]
    exact List.Perm.refl _

/-- Two-element permutation case split. -/
theorem perm_pair_cases {x y u v : String}
    (h : List.Perm [x, y] [u, v]) :
    (x = u ∧ y = v) ∨ (x = v ∧ y = u) := by
  have hx : x ∈ [u, v] := h.subset (List.mem_cons_self _ _)
  rcases List.mem_cons.1 hx with rfl | hx'
  · left
    refine ⟨rfl, ?_⟩
    have h2 := h.cons_inv
    rw [List.perm_singleton] at h2
    injection h2 with h3 _
  · rcases List.mem_singleton.1 hx' with rfl
    right
    refine ⟨rfl, ?_⟩
    have h2 : List.Perm [x, y] [x, u] := h.trans (List.Perm.swap x u [])
    have h3 := h2.cons_inv
    rw [List.perm_singleton] at h3
    injection h3 with h4 _

/-- The merged query-variant list always starts with the root query, so it
is never empty. -/
theorem build_all_queries_ne_nil (qc : QueryCorpora) (query : String) :
    build_all_queries qc query ≠ [] := by
  show (dedupKeepFirst (query :: _)).take 7 ≠ []
  simp [dedupKeepFirst, dedupFirstAux]

/-- `diversityGo` on a dissimilar pair keeps both documents. -/
theorem diversityGo_pair {E : Type} (Eb : Embedder E) (th : ℚ)
    (a b : SearchResult) (ea eb : E) (hcond : Eb.cos eb ea < th) :
    diversityGo Eb th 5 [(a, ea)] [(b, eb)] = [a, b] := by
  simp only [diversityGo, List.map_cons, List.map_nil]
  rw [if_pos (show maxQ [Eb.cos eb ea] < th from hcond)]
  rw [if_neg (by simp)]
  rfl

/-! ### C4: the two-chunk thorough scenario -/

/-- C4, amended.  On a corpus of exactly two chunks with distinct ids and
distinct texts whose encoded texts are mutually dissimilar under the
diversity threshold (`cos < 0.85` in both directions), thorough search with
`top_k = 5` returns exactly 2 results, for every query, every completion
order of the fan-out, every stop-word/synonym corpus and every per-document
BM25 scorer.  (The dissimilarity proviso is forced by the counterexample:
near-duplicate chunks are collapsed by the diversity filter.)  No error
path exists in the embedded pipeline, matching "completes without raising".
-/
theorem C4_amended {E : Type} (Eb : Embedder E) (qc : QueryCorpora)
    (bm25 : List (List String) → List String → List ℚ)
    (reranker : String → String → ℚ) (c1 c2 : Chunk) (v1 v2 : E)
    (completion : List Nat) (query : String)
    (hid : c1.id ≠ c2.id)
    (htext : c1.chunk_text ≠ c2.chunk_text)
    (hsim12 : Eb.cos (Eb.encode c1.chunk_text) (Eb.encode c2.chunk_text) <
      mkRat 17 20)
    (hsim21 : Eb.cos (Eb.encode c2.chunk_text) (Eb.encode c1.chunk_text) <
      mkRat 17 20)
    (hbm : ∀ corpus qt, (bm25 corpus qt).length = corpus.length)
    (hcomp : List.Perm completion (List.range (thorough_futures Eb qc bm25
      [c1, c2] [(c1.id, "full", v1), (c2.id, "full", v2)] query).length)) :
    (thorough_search Eb qc bm25 reranker [c1, c2]
      [(c1.id, "full", v1), (c2.id, "full", v2)] completion query 5).length =
      2 := by
  have hrows : joinRows [c1, c2] [(c1.id, "full", v1), (c2.id, "full", v2)]
      "full" =
      [⟨c1.id, c1.source, c1.chunk_text, c1.metadata, v1⟩,
       ⟨c2.id, c2.source, c2.chunk_text, c2.metadata, v2⟩] := by
    have h21 : (c2.id == c1.id) = false := beq_eq_false_iff_ne.2 (Ne.symm hid)
    have h12 : (c1.id == c2.id) = false := beq_eq_false_iff_ne.2 hid
    simp [joinRows, h21, h12]
  have hfut : ∀ f ∈ thorough_futures Eb qc bm25 [c1, c2]
      [(c1.id, "full", v1), (c2.id, "full", v2)] query,
      List.Perm (f.map (·.chunk_text)) [c1.chunk_text, c2.chunk_text] := by
    intro f hf
    unfold thorough_futures at hf
    rcases List.mem_flatMap.1 hf with ⟨v, _, hfv⟩
    rcases List.mem_cons.1 hfv with rfl | hfv'
    · have hv := vector_search_texts_perm Eb [c1, c2]
        [(c1.id, "full", v1), (c2.id, "full", v2)] v 10 "full"
        (by rw [hrows]; norm_num)
      rw [hrows] at hv
      exact hv
    · rcases List.mem_singleton.1 hfv' with rfl
      exact bm25_search_texts_perm bm25 [c1, c2] v 10 (by simp)
        (by norm_num) (by simp) (by rw [hbm, List.length_map])
  have hfut_ne : thorough_futures Eb qc bm25 [c1, c2]
      [(c1.id, "full", v1), (c2.id, "full", v2)] query ≠ [] := by
    unfold thorough_futures
    rcases List.exists_cons_of_ne_nil (build_all_queries_ne_nil qc query)
      with ⟨q0, t0, hq⟩
    rw [hq]
    simp
  have hfpos : 0 < (thorough_futures Eb qc bm25 [c1, c2]
      [(c1.id, "full", v1), (c2.id, "full", v2)] query).length :=
    List.length_pos.2 hfut_ne
  have hcoll_sub : ∀ x ∈ collectOrdered (thorough_futures Eb qc bm25 [c1, c2]
      [(c1.id, "full", v1), (c2.id, "full", v2)] query) completion,
      x.chunk_text ∈ [c1.chunk_text, c2.chunk_text] := by
    intro x hx
    rcases (mem_collectOrdered _ _ x).1 hx with ⟨i, _, hxi⟩
    by_cases hilt : i < (thorough_futures Eb qc bm25 [c1, c2]
        [(c1.id, "full", v1), (c2.id, "full", v2)] query).length
    · rw [List.getD_eq_getElem _ _ hilt] at hxi
      exact (hfut _ (List.getElem_mem hilt)).subset
        (List.mem_map_of_mem _ hxi)
    · rw [List.getD_eq_default _ _ (Nat.le_of_not_lt hilt)] at hxi
      cases hxi
  have hcoll_mem : ∀ t ∈ ([c1.chunk_text, c2.chunk_text] : List String),
      t ∈ (collectOrdered (thorough_futures Eb qc bm25 [c1, c2]
        [(c1.id, "full", v1), (c2.id, "full", v2)] query) completion).map
        (·.chunk_text) := by
    intro t ht
    have h0mem : (0 : Nat) ∈ completion := by
      rw [hcomp.mem_iff, List.mem_range]
      exact hfpos
    have hmem := hfut _ (List.getElem_mem hfpos)
    have htin : t ∈ ((thorough_futures Eb qc bm25 [c1, c2]
        [(c1.id, "full", v1), (c2.id, "full", v2)] query)[0]).map
        (·.chunk_text) := hmem.mem_iff.2 ht
    rcases List.mem_map.1 htin with ⟨x, hx0, hxt⟩
    refine List.mem_map.2 ⟨x, ?_, hxt⟩
    refine (mem_collectOrdered _ _ x).2 ⟨0, h0mem, ?_⟩
    rw [List.getD_eq_getElem _ _ hfpos]
    exact hx0
  have hmem_iff : ∀ t, t ∈ (dedupByText (collectOrdered (thorough_futures
      Eb qc bm25 [c1, c2] [(c1.id, "full", v1), (c2.id, "full", v2)] query)
      completion)).map (·.chunk_text) ↔
      t ∈ (collectOrdered (thorough_futures Eb qc bm25 [c1, c2]
        [(c1.id, "full", v1), (c2.id, "full", v2)] query) completion).map
        (·.chunk_text) := by
    intro t
    rw [dedupByText, dedupByTextAux_text_mem]
    simp
  have huniq_texts : List.Perm ((dedupByText (collectOrdered
      (thorough_futures Eb qc bm25 [c1, c2]
        [(c1.id, "full", v1), (c2.id, "full", v2)] query)
      completion)).map (·.chunk_text)) [c1.chunk_text, c2.chunk_text] := by
    have hnodup := (dedupByTextAux_text_nodup (collectOrdered
      (thorough_futures Eb qc bm25 [c1, c2]
        [(c1.id, "full", v1), (c2.id, "full", v2)] query) completion) []).1
    have hsub2 : List.Subperm ((dedupByText (collectOrdered
        (thorough_futures Eb qc bm25 [c1, c2]
          [(c1.id, "full", v1), (c2.id, "full", v2)] query)
        completion)).map (·.chunk_text)) [c1.chunk_text, c2.chunk_text] := by
      refine List.Nodup.subperm hnodup ?_
      intro t ht
      rcases List.mem_map.1 ((hmem_iff t).1 ht) with ⟨x, hx, rfl⟩
      exact hcoll_sub x hx
    have hsub1 : List.Subperm ([c1.chunk_text, c2.chunk_text] : List String)
        ((dedupByText (collectOrdered (thorough_futures Eb qc bm25 [c1, c2]
          [(c1.id, "full", v1), (c2.id, "full", v2)] query)
          completion)).map (·.chunk_text)) := by
      refine List.Nodup.subperm ?_ ?_
      · simp [htext]
      · intro t ht
        exact (hmem_iff t).2 (hcoll_mem t ht)
    exact hsub2.antisymm hsub1
  have huniq_len : (dedupByText (collectOrdered (thorough_futures Eb qc bm25
      [c1, c2] [(c1.id, "full", v1), (c2.id, "full", v2)] query)
      completion)).length = 2 := by
    have := huniq_texts.length_eq
    simpa using this
  simp only [thorough_search, thorough_tail]
  rw [List.take_of_length_le (by rw [huniq_len]; norm_num)]
  have hmv_texts := (pmvs_texts_perm Eb query (dedupByText (collectOrdered
    (thorough_futures Eb qc bm25 [c1, c2]
      [(c1.id, "full", v1), (c2.id, "full", v2)] query) completion)) 30
    (by rw [huniq_len]; norm_num)).trans huniq_texts
  have hmv_len : (parallel_multi_vector_search Eb query (dedupByText
      (collectOrdered (thorough_futures Eb qc bm25 [c1, c2]
        [(c1.id, "full", v1), (c2.id, "full", v2)] query) completion))
      30).length = 2 := by
    have := hmv_texts.length_eq
    simpa using this
  have hrr_texts := (rerank_texts_perm reranker query
    (parallel_multi_vector_search Eb query (dedupByText (collectOrdered
      (thorough_futures Eb qc bm25 [c1, c2]
        [(c1.id, "full", v1), (c2.id, "full", v2)] query) completion)) 30)
    20 (by rw [hmv_len]; norm_num)).trans hmv_texts
  have hrr_len : (rerank_with_cross_encoder reranker query
      (parallel_multi_vector_search Eb query (dedupByText (collectOrdered
        (thorough_futures Eb qc bm25 [c1, c2]
          [(c1.id, "full", v1), (c2.id, "full", v2)] query) completion)) 30)
      20).length = 2 := by
    have := hrr_texts.length_eq
    simpa using this
  rcases List.length_eq_two.1 hrr_len with ⟨a, b, hab⟩
  rw [hab] at hrr_texts ⊢
  have hpair : (a.chunk_text = c1.chunk_text ∧
      b.chunk_text = c2.chunk_text) ∨
      (a.chunk_text = c2.chunk_text ∧ b.chunk_text = c1.chunk_text) :=
    perm_pair_cases hrr_texts
  have hcond : Eb.cos (Eb.encode b.chunk_text) (Eb.encode a.chunk_text) <
      mkRat 17 20 := by
    rcases hpair with ⟨ha1, hb2⟩ | ⟨ha2, hb1⟩
    · rw [ha1, hb2]
      exact hsim21
    · rw [ha2, hb1]
      exact hsim12
  have hstep : apply_diversity_filter Eb [a, b] (mkRat 17 20) 5 = [a, b] := by
    unfold apply_diversity_filter
    rw [if_neg (by simp)]
    show diversityGo Eb (mkRat 17 20) 5 [(a, Eb.encode a.chunk_text)]
      [(b, Eb.encode b.chunk_text)] = [a, b]
    exact diversityGo_pair Eb (mkRat 17 20) a b _ _ hcond
  rw [hstep]
  rfl

/-- C4, counterexample.  The claim asserts exactly 2 results for *any*
2-chunk corpus.  With two near-duplicate chunks (`apple`/`cherry`-style
similarity `0.9 ≥ 0.85`, here `EbSim` making `apple`/`berry` similar), the
diversity filter collapses them and thorough search with `top_k = 5`
returns exactly 1 result. -/
theorem C4_counterexample :
    (thorough_search EbSim qcX bmX rrX docs2 embs2 (List.range 8) "q"
      5).length = 1 := by
  decide

/-- C4, witness for the amended theorem on the dissimilar two-chunk
corpus. -/
theorem C4_amended_witness :
    docA.id ≠ docB.id ∧ docA.chunk_text ≠ docB.chunk_text ∧
    (thorough_search EbX qcX bmX rrX [docA, docB]
      [(docA.id, "full", (1 : Nat)), (docB.id, "full", 2)]
      (List.range (thorough_futures EbX qcX bmX [docA, docB]
        [(docA.id, "full", (1 : Nat)), (docB.id, "full", 2)] "q").length)
      "q" 5).length = 2 :=
  ⟨by decide, by decide,
    C4_amended EbX qcX bmX rrX docA docB 1 2 _ "q" (by decide) (by decide)
      (by decide) (by decide) (fun corpus _ => List.length_map corpus _)
      (List.Perm.refl _)⟩
